import Mathlib

/-!
Verification of the repoguide analysis pipeline (Go) against its
natural-language specification.

The development shallowly embeds the core of the repository:

* `internal/model/model.go` — the data model (`Tag`, `FileInfo`,
  `Dependency`, `CallEdge`, `CallSite`, `RepoMap`);
* `internal/graph` (graph.go) — `BuildGraph`, `BuildCallGraph`,
  `BuildCallSites`, `Rank` and the hand-rolled `pageRank`;
* `internal/ranking` — `SelectFiles`, `FilterBySymbol`, `FilterByFile`.

Embedding conventions, chosen to keep every definition executable:

* Go `float64` is embedded as `ℚ` (exact rational arithmetic).  The spec
  itself treats PageRank "modulo floating-point reproducibility within the
  stated tolerance", and every numeric claim below is stated with the
  spec's tolerances, so the idealization is faithful to the contract.
* Go `map[string]struct{}` sets that are used only through membership
  tests are embedded as decidable predicates or as lists queried with
  membership; Go maps iterated for commutative sums are embedded as lists
  (rational addition is commutative and associative, so the random map
  iteration order is irrelevant to the value).
* Go `sort.Slice(less)` is embedded as Mathlib's stable `insertionSort`
  over the non-strict counterpart `le a b := ¬ less b a` of the
  comparator.  Go's sort runs literal insertion sort (stable for a strict
  `less`) on slices of at most 12 elements, which covers every concrete
  input appearing in a witness or counterexample below; on longer slices
  Go's pdqsort returns some sorted permutation, and every sorted-order
  property proved below either holds for all sorted permutations (the
  sort keys involved are duplicate-free, or tied elements are fully
  identical records) or is explicitly about tie order and is settled on a
  short input.
* Go compares strings bytewise; we compare the code points of
  `String.toList`, which agrees with Go on ASCII (all data in scope).
-/

namespace Repoguide

/-! ## Data model (internal/model/model.go) -/

/-- `TagKind` — whether a tag is a definition or a reference. -/
inductive TagKind where
  | Definition
  | Reference
  deriving DecidableEq

/-- `SymbolKind` — the syntactic kind of a symbol. -/
inductive SymbolKind where
  | Class
  | Field
  | Function
  | Method
  | Module
  deriving DecidableEq

/-- `Tag` — a single symbol occurrence extracted from source code. -/
structure Tag where
  Name : String
  Kind : TagKind
  SymbolKind : SymbolKind
  Line : Nat
  File : String
  Signature : String
  Enclosing : String
  deriving DecidableEq

/-- `FileInfo` — metadata and extracted tags for a single source file.
`Rank` is Go `float64`, embedded as `ℚ`. -/
structure FileInfo where
  Path : String
  Language : String
  Tags : List Tag
  Rank : ℚ
  deriving DecidableEq

/-- `Dependency` — `Source` references symbols defined in `Target`. -/
structure Dependency where
  Source : String
  Target : String
  Symbols : List String
  deriving DecidableEq

/-- `CallEdge` — a function-level call: `Caller` calls `Callee`. -/
structure CallEdge where
  Caller : String
  Callee : String
  deriving DecidableEq

/-- `CallSite` — a specific call occurrence with its source location. -/
structure CallSite where
  Caller : String
  Callee : String
  File : String
  Line : Nat
  deriving DecidableEq

/-- `RepoMap` — the complete analyzed repository map. -/
structure RepoMap where
  RepoName : String
  Root : String
  Files : List FileInfo
  Dependencies : List Dependency
  CallEdges : List CallEdge
  CallSites : List CallSite
  Members : List Tag
  deriving DecidableEq

/-! ## String order and case-insensitive matching helpers

Go compares strings bytewise (`<` on UTF-8 bytes) and lowercases with
`strings.ToLower`.  We embed the comparison as code-point lexicographic
order on `String.toList` and the lowering as ASCII lowering; both agree
with Go on the ASCII data in scope, and no theorem below depends on the
behaviour at non-ASCII code points. -/

/-- Strict lexicographic order on lists of characters, by code point. -/
def lexLt : List Char → List Char → Bool
  | [], [] => false
  | [], _ :: _ => true
  | _ :: _, [] => false
  | a :: as, b :: bs =>
    if a.toNat < b.toNat then true
    else if b.toNat < a.toNat then false
    else lexLt as bs

/-- Strict string order, embedding Go's `<` on strings. -/
def strLt (a b : String) : Prop := lexLt a.toList b.toList = true

/-- Non-strict string order: the complement of Go's `less` comparator. -/
def strLe (a b : String) : Prop := strLt a b ∨ a = b

instance : DecidableRel strLt := fun a b =>
  inferInstanceAs (Decidable (lexLt a.toList b.toList = true))

instance : DecidableRel strLe := fun a b =>
  inferInstanceAs (Decidable (strLt a b ∨ a = b))

theorem lexLt_trans : ∀ {a b c : List Char},
    lexLt a b = true → lexLt b c = true → lexLt a c = true := by
  intro a
  induction a with
  | nil =>
    intro b c hab hbc
    cases b with
    | nil => simp [lexLt] at hab
    | cons y ys =>
      cases c with
      | nil => simp [lexLt] at hbc
      | cons z zs => simp [lexLt]
  | cons x xs ih =>
    intro b c hab hbc
    cases b with
    | nil => simp [lexLt] at hab
    | cons y ys =>
      cases c with
      | nil => simp [lexLt] at hbc
      | cons z zs =>
        simp only [lexLt] at hab hbc ⊢
        rcases Nat.lt_trichotomy x.toNat y.toNat with hxy | hxy | hxy
        · rcases Nat.lt_trichotomy y.toNat z.toNat with hyz | hyz | hyz
          · rw [if_pos (by omega)]
          · rw [if_pos (by omega)]
          · exfalso
            rw [if_neg (by omega), if_pos hyz] at hbc
            exact Bool.false_ne_true hbc
        · rcases Nat.lt_trichotomy y.toNat z.toNat with hyz | hyz | hyz
          · rw [if_pos (by omega)]
          · rw [if_neg (by omega), if_neg (by omega)] at hab
            rw [if_neg (by omega), if_neg (by omega)] at hbc
            rw [if_neg (by omega), if_neg (by omega)]
            exact ih hab hbc
          · exfalso
            rw [if_neg (by omega), if_pos hyz] at hbc
            exact Bool.false_ne_true hbc
        · exfalso
          rw [if_neg (by omega), if_pos hxy] at hab
          exact Bool.false_ne_true hab

theorem lexLt_asymm : ∀ {a b : List Char},
    lexLt a b = true → lexLt b a = true → False := by
  intro a
  induction a with
  | nil =>
    intro b hab hba
    cases b with
    | nil => simp [lexLt] at hab
    | cons y ys => simp [lexLt] at hba
  | cons x xs ih =>
    intro b hab hba
    cases b with
    | nil => simp [lexLt] at hab
    | cons y ys =>
      simp only [lexLt] at hab hba
      rcases Nat.lt_trichotomy x.toNat y.toNat with hxy | hxy | hxy
      · rw [if_neg (by omega), if_pos (by omega)] at hba
        exact Bool.false_ne_true hba
      · rw [if_neg (by omega), if_neg (by omega)] at hab
        rw [if_neg (by omega), if_neg (by omega)] at hba
        exact ih hab hba
      · rw [if_neg (by omega), if_pos (by omega)] at hab
        exact Bool.false_ne_true hab

theorem lexLt_connex : ∀ {a b : List Char},
    lexLt a b = false → lexLt b a = false → a = b := by
  intro a
  induction a with
  | nil =>
    intro b hab _
    cases b with
    | nil => rfl
    | cons y ys => simp [lexLt] at hab
  | cons x xs ih =>
    intro b hab hba
    cases b with
    | nil => simp [lexLt] at hba
    | cons y ys =>
      simp only [lexLt] at hab hba
      rcases Nat.lt_trichotomy x.toNat y.toNat with hxy | hxy | hxy
      · rw [if_pos hxy] at hab
        exact absurd hab (by simp)
      · rw [if_neg (by omega), if_neg (by omega)] at hab
        rw [if_neg (by omega), if_neg (by omega)] at hba
        have hch : x = y := by
          apply Char.ext
          apply UInt32.ext
          exact hxy
        rw [hch, ih hab hba]
      · rw [if_pos hxy] at hba
        exact absurd hba (by simp)

theorem strLe_total (a b : String) : strLe a b ∨ strLe b a := by
  by_cases h1 : lexLt a.toList b.toList = true
  · exact Or.inl (Or.inl h1)
  · by_cases h2 : lexLt b.toList a.toList = true
    · exact Or.inr (Or.inl h2)
    · left; right
      have hdata : a.data = b.data :=
        lexLt_connex (Bool.eq_false_iff.mpr h1) (Bool.eq_false_iff.mpr h2)
      cases a; cases b
      simp only at hdata
      rw [hdata]

theorem strLt_trans {a b c : String} (h1 : strLt a b) (h2 : strLt b c) :
    strLt a c := lexLt_trans h1 h2

theorem strLt_asymm {a b : String} (h1 : strLt a b) (h2 : strLt b a) : False :=
  lexLt_asymm h1 h2

theorem strLe_trans {a b c : String} (h1 : strLe a b) (h2 : strLe b c) :
    strLe a c := by
  rcases h1 with h1 | rfl
  · rcases h2 with h2 | rfl
    · exact Or.inl (strLt_trans h1 h2)
    · exact Or.inl h1
  · exact h2

/-- ASCII lowering of one character, embedding `strings.ToLower` on the
ASCII range (the only range exercised by the repository's data). -/
def lowerChar (c : Char) : Char :=
  if 65 ≤ c.toNat ∧ c.toNat ≤ 90 then Char.ofNat (c.toNat + 32) else c

/-- Lowered character list of a string. -/
def lowerStr (s : String) : List Char := s.toList.map lowerChar

/-- Whether `pat` is a leading segment of `hay`. -/
def leadsWith : List Char → List Char → Bool
  | _, [] => true
  | [], _ :: _ => false
  | h :: hs, p :: ps => h = p && leadsWith hs ps

/-- Whether `hay` contains `pat` as a contiguous segment
(`strings.Contains`; the empty pattern is contained everywhere). -/
def listHasSub : List Char → List Char → Bool
  | [], pat => leadsWith [] pat
  | h :: t, pat => leadsWith (h :: t) pat || listHasSub t pat

/-- Case-insensitive substring test:
`strings.Contains(strings.ToLower(s), strings.ToLower(sub))`. -/
def containsLower (s sub : String) : Bool := listHasSub (lowerStr s) (lowerStr sub)

/-! ## Graph builder (internal/graph/graph.go) -/

/-- Go helper `contains(slice, s)` from graph.go. -/
def contains (slice : List String) (s : String) : Bool :=
  slice.any (fun v => v = s)

/-- The set `defines[name]` of files defining `name`, listed in sorted
order.  graph.go builds `defines : name → set(file)` from all Definition
tags and later iterates it through `sortedKeys`; we build the path set
(`dedup`) and sort it in one step. -/
def definesSorted (fileInfos : List FileInfo) (name : String) : List String :=
  List.insertionSort strLe
    (((fileInfos.filter (fun fi =>
        fi.Tags.any (fun t => t.Kind = TagKind.Definition ∧ t.Name = name))).map
      (fun fi => fi.Path)).dedup)

/-- One `(edge key, symbol)` contribution per qualifying reference:
graph.go's nested loops over files, reference tags, and the sorted
defining files (skipping self-edges), flattened into a list. -/
def refContribs (fileInfos : List FileInfo) : List ((String × String) × String) :=
  fileInfos.flatMap (fun fi =>
    (fi.Tags.filter (fun t => t.Kind = TagKind.Reference)).flatMap (fun tag =>
      ((definesSorted fileInfos tag.Name).filter (fun defFile => defFile ≠ fi.Path)).map
        (fun defFile => ((fi.Path, defFile), tag.Name))))

/-- One step of graph.go's `edgeSymbols` accumulation: append `name` to the
symbol list of `key` unless already present, creating the entry on first
contact.  The association list keeps insertion order, like the Go map
plus its eventual deterministic sort. -/
def addEdgeSym (acc : List ((String × String) × List String))
    (key : String × String) (name : String) :
    List ((String × String) × List String) :=
  match acc with
  | [] => [(key, [name])]
  | (k, syms) :: rest =>
    if k = key then
      if contains syms name then (k, syms) :: rest
      else (k, syms ++ [name]) :: rest
    else (k, syms) :: addEdgeSym rest key name

/-- The accumulated `edgeSymbols` association list. -/
def edgeSymbols (fileInfos : List FileInfo) :
    List ((String × String) × List String) :=
  (refContribs fileInfos).foldl (fun acc p => addEdgeSym acc p.1 p.2) []

/-- Sort order for dependencies: by `(Source, Target)`; the complement of
graph.go's `sort.Slice` less function. -/
def depLe (a b : Dependency) : Prop :=
  strLt a.Source b.Source ∨ (a.Source = b.Source ∧ strLe a.Target b.Target)

instance : DecidableRel depLe := fun a b =>
  inferInstanceAs (Decidable (strLt a.Source b.Source ∨
    (a.Source = b.Source ∧ strLe a.Target b.Target)))

/-- `BuildGraph` — dependency edges from cross-file symbol references
(graph.go). -/
def BuildGraph (fileInfos : List FileInfo) : List Dependency :=
  List.insertionSort depLe
    ((edgeSymbols fileInfos).map (fun e =>
      { Source := e.1.1, Target := e.1.2, Symbols := e.2 }))

/-- All known definition names (graph.go builds a set; only membership is
ever queried, so a list with `∈` is an exact embedding). -/
def knownDefs (fileInfos : List FileInfo) : List String :=
  fileInfos.flatMap (fun fi =>
    (fi.Tags.filter (fun t => t.Kind = TagKind.Definition)).map (fun t => t.Name))

/-- Fuel-indexed helper for `firstDedup`; the fuel is an upper bound on
the list length, making the recursion structural (and so computable by
the kernel). -/
def firstDedupF {α : Type} [DecidableEq α] : Nat → List α → List α
  | 0, _ => []
  | _ + 1, [] => []
  | n + 1, a :: l => a :: firstDedupF n (l.filter (fun x => x ≠ a))

/-- Keep the first occurrence of every element, dropping later
duplicates — the effect of graph.go's `seen` set / `contains` check. -/
def firstDedup {α : Type} [DecidableEq α] (l : List α) : List α :=
  firstDedupF l.length l

theorem firstDedupF_congr {α : Type} [DecidableEq α] :
    ∀ {n m : Nat} {l : List α}, l.length ≤ n → l.length ≤ m →
      firstDedupF n l = firstDedupF m l := by
  intro n
  induction n with
  | zero =>
    intro m l hn _
    have : l = [] := List.eq_nil_of_length_eq_zero (Nat.le_zero.mp hn)
    subst this
    cases m <;> rfl
  | succ k ih =>
    intro m l hn hm
    cases l with
    | nil => cases m <;> rfl
    | cons a t =>
      cases m with
      | zero => exact absurd hm (by simp)
      | succ m2 =>
        simp only [firstDedupF]
        have ht : (t.filter (fun x => x ≠ a)).length ≤ k := by
          have := List.length_filter_le (fun x => decide (x ≠ a)) t
          simp only [List.length_cons] at hn
          omega
        have ht2 : (t.filter (fun x => x ≠ a)).length ≤ m2 := by
          have := List.length_filter_le (fun x => decide (x ≠ a)) t
          simp only [List.length_cons] at hm
          omega
        rw [ih ht ht2]

theorem firstDedup_nil {α : Type} [DecidableEq α] :
    firstDedup ([] : List α) = [] := rfl

theorem firstDedup_cons {α : Type} [DecidableEq α] (a : α) (l : List α) :
    firstDedup (a :: l) = a :: firstDedup (l.filter (fun x => x ≠ a)) := by
  simp only [firstDedup, List.length_cons, firstDedupF]
  exact congrArg _ (firstDedupF_congr (List.length_filter_le _ _) (Nat.le_refl _))

/-- Sort order for call edges: by `(Caller, Callee)`. -/
def edgeLe (a b : CallEdge) : Prop :=
  strLt a.Caller b.Caller ∨ (a.Caller = b.Caller ∧ strLe a.Callee b.Callee)

instance : DecidableRel edgeLe := fun a b =>
  inferInstanceAs (Decidable (strLt a.Caller b.Caller ∨
    (a.Caller = b.Caller ∧ strLe a.Callee b.Callee)))

/-- `BuildCallGraph` — function-level call edges (graph.go).  An edge is
included when the reference has a non-empty `Enclosing` and its name is a
known definition; edges are deduplicated (first occurrence, via the
`seen` set) and sorted by `(caller, callee)`. -/
def BuildCallGraph (fileInfos : List FileInfo) : List CallEdge :=
  let known := knownDefs fileInfos
  let raw := fileInfos.flatMap (fun fi =>
    (fi.Tags.filter (fun t =>
      t.Kind = TagKind.Reference ∧ t.Enclosing ≠ "" ∧ t.Name ∈ known)).map
      (fun t => { Caller := t.Enclosing, Callee := t.Name }))
  List.insertionSort edgeLe (firstDedup raw)

/-- Sort order for call sites: by `(Caller, Callee, File, Line)`. -/
def siteLe (a b : CallSite) : Prop :=
  strLt a.Caller b.Caller ∨ (a.Caller = b.Caller ∧
    (strLt a.Callee b.Callee ∨ (a.Callee = b.Callee ∧
      (strLt a.File b.File ∨ (a.File = b.File ∧ a.Line ≤ b.Line)))))

instance : DecidableRel siteLe := fun a b =>
  inferInstanceAs (Decidable (strLt a.Caller b.Caller ∨ (a.Caller = b.Caller ∧
    (strLt a.Callee b.Callee ∨ (a.Callee = b.Callee ∧
      (strLt a.File b.File ∨ (a.File = b.File ∧ a.Line ≤ b.Line)))))))

/-- The per-occurrence call-site list, in file/tag order: one `CallSite`
per reference tag whose name is a known definition, substituting the
sentinel caller `<import>` when `Enclosing` is empty (graph.go's
`BuildCallSites` loop before its final sort). -/
def occSites (fileInfos : List FileInfo) : List CallSite :=
  let known := knownDefs fileInfos
  fileInfos.flatMap (fun fi =>
    (fi.Tags.filter (fun t => t.Kind = TagKind.Reference ∧ t.Name ∈ known)).map
      (fun t =>
        { Caller := if t.Enclosing = "" then "<import>" else t.Enclosing
          Callee := t.Name
          File := fi.Path
          Line := t.Line }))

/-- `BuildCallSites` — all individual call and import occurrences with
source locations, sorted by `(caller, callee, file, line)` and not
deduplicated (graph.go). -/
def BuildCallSites (fileInfos : List FileInfo) : List CallSite :=
  List.insertionSort siteLe (occSites fileInfos)

/-! ## PageRank and `Rank` (graph.go)

graph.go builds `outEdges : map[node][]target` and `outDegree` by pushing
one edge per symbol of every Dependency.  The iteration
`for src, targets := range outEdges { contrib := α·rank[src]/deg(src);
for tgt := range targets { newRank[tgt] += contrib } }` adds, over all
edges `(src, tgt)`, the amount `α·rank[src]/deg(src)` at `tgt`; we embed
the edge multiset as a flat list and fold the same additions over it
(rational addition is commutative, so the grouping and the map's random
iteration order do not affect the result).  Rank maps (`map[string]float64`,
reads of missing keys yield 0) are embedded as total functions `String → ℚ`. -/

/-- `outDegree[u]`: the number of edges leaving `u`. -/
def outDeg (edges : List (String × String)) (u : String) : Nat :=
  (edges.map Prod.fst).count u

/-- One PageRank iteration: teleport + dangling-mass redistribution over
the node set, then distribution of rank through the edges. -/
def prIter (nodes : List String) (edges : List (String × String))
    (alpha : ℚ) (rank : String → ℚ) : String → ℚ :=
  let n : ℚ := (nodes.length : ℚ)
  let teleport := (1 - alpha) / n
  let danglingSum := ((nodes.filter (fun v => outDeg edges v = 0)).map rank).sum
  let danglingContrib := alpha * danglingSum / n
  let base : String → ℚ := fun v => if v ∈ nodes then teleport + danglingContrib else 0
  edges.foldl
    (fun r e => fun v =>
      if v = e.2 then r v + alpha * rank e.1 / (outDeg edges e.1 : ℚ) else r v)
    base

/-- The L1 distance between successive rank vectors, over the node set. -/
def prDiff (nodes : List String) (rank newRank : String → ℚ) : ℚ :=
  (nodes.map (fun v => |newRank v - rank v|)).sum

/-- The PageRank iteration loop: runs up to the given number of
iterations, stopping early when the L1 difference drops below `tol`
(after Go's loop exits — by break or by exhausting `maxIter` — the
current vector is the `newRank` of the last executed iteration). -/
def prLoop (nodes : List String) (edges : List (String × String))
    (alpha tol : ℚ) : Nat → (String → ℚ) → (String → ℚ)
  | 0, rank => rank
  | k + 1, rank =>
    let newRank := prIter nodes edges alpha rank
    if prDiff nodes rank newRank < tol then newRank
    else prLoop nodes edges alpha tol k newRank

/-- `pageRank` from graph.go (empty node set → nil map, i.e. all reads 0;
otherwise iterate from the uniform vector). -/
def pageRank (nodes : List String) (edges : List (String × String))
    (alpha : ℚ) (maxIter : Nat) (tol : ℚ) : String → ℚ :=
  if nodes.length = 0 then fun _ => 0
  else prLoop nodes edges alpha tol maxIter
    (fun v => if v ∈ nodes then 1 / (nodes.length : ℚ) else 0)

/-- Sort order used by `Rank`: descending `Rank`.  Go's comparator is the
strict `Rank[i] > Rank[j]`; its non-strict counterpart makes equal-rank
files keep their pre-sort order under a stable sort, exactly as Go's
insertion sort (run for slices of ≤ 12 files) does. -/
def fileLe (a b : FileInfo) : Prop := b.Rank ≤ a.Rank

instance : DecidableRel fileLe := fun a b =>
  inferInstanceAs (Decidable (b.Rank ≤ a.Rank))

/-- `Rank` — applies PageRank (α = 0.85, 100 iterations, tolerance 1e-6)
to the file list and sorts it by rank descending; with no dependencies
every file gets the uniform rank `1/N` and the list is returned without
sorting (graph.go). -/
def Rank (fileInfos : List FileInfo) (deps : List Dependency) : List FileInfo :=
  if fileInfos.length = 0 then fileInfos
  else if deps.length = 0 then
    fileInfos.map (fun fi => { fi with Rank := 1 / (fileInfos.length : ℚ) })
  else
    let nodes := (fileInfos.map (fun fi => fi.Path)).dedup
    let edges := deps.flatMap (fun d => d.Symbols.map (fun _ => (d.Source, d.Target)))
    let ranks := pageRank nodes edges (17 / 20) 100 (1 / 1000000)
    List.insertionSort fileLe
      (fileInfos.map (fun fi => { fi with Rank := ranks fi.Path }))

/-! ## Focus projection (internal/ranking/ranking.go)

The Go code builds `map[string]struct{}` sets (`matchedSymbols`,
`matchedFiles`, `relatedSymbols`, `selectedPaths`, `selectedDefs`,
`defToFile`) that are only ever queried through membership; each is
embedded as the decidable membership predicate it computes. -/

/-- `SelectFiles` — keeps only the top `maxFiles` ranked files, the
dependencies with both endpoints selected, and the call edges / call
sites whose caller is a definition in a selected file; `maxFiles ≤ 0` or
`≥ len(files)` returns the input unchanged. -/
def SelectFiles (rm : RepoMap) (maxFiles : Int) : RepoMap :=
  if maxFiles ≤ 0 ∨ (rm.Files.length : Int) ≤ maxFiles then rm
  else
    let selected := rm.Files.take maxFiles.toNat
    let selectedPaths : String → Bool := fun p => selected.any (fun fi => fi.Path = p)
    let deps := rm.Dependencies.filter
      (fun d => selectedPaths d.Source && selectedPaths d.Target)
    let selectedDefs : String → Bool := fun name =>
      selected.any (fun fi => fi.Tags.any (fun t =>
        t.Kind = TagKind.Definition ∧ t.Name = name))
    let callEdges := rm.CallEdges.filter (fun ce => selectedDefs ce.Caller)
    let callSites := rm.CallSites.filter (fun cs => selectedDefs cs.Caller)
    { RepoName := rm.RepoName
      Root := rm.Root
      Files := selected
      Dependencies := deps
      CallEdges := callEdges
      CallSites := callSites
      Members := [] }

/-- The part of a qualified name after the last `.` (the whole name when
there is no dot) — `strings.LastIndex` slicing in FilterBySymbol. -/
def unqualifiedName (name : String) : String :=
  ⟨(name.toList.reverse.takeWhile (fun c => c ≠ '.')).reverse⟩

/-- Whether a qualified name contains a `.` (so `LastIndex ≥ 0`). -/
def hasDot (name : String) : Bool := name.toList.any (fun c => c = '.')

/-- The part of a qualified name before the last `.`. -/
def ownerName (name : String) : String :=
  ⟨((name.toList.reverse.dropWhile (fun c => c ≠ '.')).drop 1).reverse⟩

/-- Membership in FilterBySymbol's primary `matchedSymbols`: some
Definition tag with this name, not a Field, whose lowered name contains
the lowered substring. -/
def symbolPrimaryMatched (rm : RepoMap) (substr : String) (name : String) : Bool :=
  rm.Files.any (fun fi => fi.Tags.any (fun t =>
    t.Kind = TagKind.Definition ∧ t.SymbolKind ≠ SymbolKind.Field ∧
    containsLower t.Name substr = true ∧ t.Name = name))

/-- Whether the primary match pass found anything at all
(`len(matchedSymbols) == 0` test before the member fallback). -/
def anyPrimaryMatch (rm : RepoMap) (substr : String) : Bool :=
  rm.Files.any (fun fi => fi.Tags.any (fun t =>
    t.Kind = TagKind.Definition ∧ t.SymbolKind ≠ SymbolKind.Field ∧
    containsLower t.Name substr = true))

/-- Membership contributed by the member fallback: a Field definition
whose unqualified name contains the substring. -/
def symbolFallbackMatched (rm : RepoMap) (substr : String) (name : String) : Bool :=
  rm.Files.any (fun fi => fi.Tags.any (fun t =>
    t.Kind = TagKind.Definition ∧ t.SymbolKind = SymbolKind.Field ∧
    containsLower (unqualifiedName t.Name) substr = true ∧ t.Name = name))

/-- Membership in `matchedSymbols` after both passes of FilterBySymbol. -/
def matchedSymbol (rm : RepoMap) (substr : String) (withMembers : Bool)
    (name : String) : Bool :=
  symbolPrimaryMatched rm substr name ||
    (withMembers && !anyPrimaryMatch rm substr &&
      symbolFallbackMatched rm substr name)

/-- Membership in `relatedSymbols`: the one-hop expansion over the call
graph — callees of matched callers and callers of matched callees. -/
def relatedSymbol (rm : RepoMap) (substr : String) (withMembers : Bool)
    (name : String) : Bool :=
  rm.CallEdges.any (fun ce =>
    (matchedSymbol rm substr withMembers ce.Caller = true ∧ ce.Callee = name) ∨
    (matchedSymbol rm substr withMembers ce.Callee = true ∧ ce.Caller = name))

/-- Membership in `matchedFiles` after all three passes: files with a
primary match, files added by the member fallback, and files defining a
related symbol. -/
def fileMatched (rm : RepoMap) (substr : String) (withMembers : Bool)
    (path : String) : Bool :=
  rm.Files.any (fun fi => fi.Path = path ∧
    (fi.Tags.any (fun t =>
        t.Kind = TagKind.Definition ∧ t.SymbolKind ≠ SymbolKind.Field ∧
        containsLower t.Name substr = true) ∨
     (withMembers = true ∧ anyPrimaryMatch rm substr = false ∧
        fi.Tags.any (fun t =>
          t.Kind = TagKind.Definition ∧ t.SymbolKind = SymbolKind.Field ∧
          containsLower (unqualifiedName t.Name) substr = true)) ∨
     fi.Tags.any (fun t =>
        t.Kind = TagKind.Definition ∧
        relatedSymbol rm substr withMembers t.Name = true)))

/-- The members table collected by FilterBySymbol when `withMembers` is
set: phase A takes every Field tag whose owning type is a matched symbol;
if that yields nothing, phase B carries over the fallback-matched Field
tags themselves. -/
def membersFor (rm : RepoMap) (substr : String) (withMembers : Bool) : List Tag :=
  if withMembers then
    let phaseA := rm.Files.flatMap (fun fi => fi.Tags.filter (fun t =>
      t.Kind = TagKind.Definition ∧ t.SymbolKind = SymbolKind.Field ∧
      hasDot t.Name = true ∧
      matchedSymbol rm substr withMembers (ownerName t.Name) = true))
    if phaseA.length = 0 then
      rm.Files.flatMap (fun fi => fi.Tags.filter (fun t =>
        t.Kind = TagKind.Definition ∧ t.SymbolKind = SymbolKind.Field ∧
        matchedSymbol rm substr withMembers t.Name = true))
    else phaseA
  else []

/-- `FilterBySymbol` — projects the RepoMap onto the symbols matching the
substring (case-insensitively), expanded one hop through the call graph,
with the matched files' tags trimmed to the matched and related
definitions (Fields never shown in the symbols view), dependencies
touching a matched file on either endpoint, call edges and call sites
touching a matched symbol on either end, and the members table when
requested (internal/ranking). -/
def FilterBySymbol (rm : RepoMap) (substr : String) (withMembers : Bool) : RepoMap :=
  let files := (rm.Files.filter
      (fun fi => fileMatched rm substr withMembers fi.Path)).map (fun fi =>
    { fi with Tags := fi.Tags.filter (fun t =>
        t.Kind = TagKind.Definition ∧ t.SymbolKind ≠ SymbolKind.Field ∧
        (matchedSymbol rm substr withMembers t.Name = true ∨
         relatedSymbol rm substr withMembers t.Name = true)) })
  let deps := rm.Dependencies.filter (fun d =>
    fileMatched rm substr withMembers d.Source ||
    fileMatched rm substr withMembers d.Target)
  let callEdges := rm.CallEdges.filter (fun ce =>
    matchedSymbol rm substr withMembers ce.Caller ||
    matchedSymbol rm substr withMembers ce.Callee)
  let callSites := rm.CallSites.filter (fun cs =>
    matchedSymbol rm substr withMembers cs.Caller ||
    matchedSymbol rm substr withMembers cs.Callee)
  { RepoName := rm.RepoName
    Root := rm.Root
    Files := files
    Dependencies := deps
    CallEdges := callEdges
    CallSites := callSites
    Members := membersFor rm substr withMembers }

/-- `FilterByFile` — projects the RepoMap onto the files whose path
contains the substring (case-insensitively), with every dependency
touching a matched file on either endpoint, every call edge whose caller
is a definition in a matched file, and every call site located in a
matched file (internal/ranking). -/
def FilterByFile (rm : RepoMap) (substr : String) : RepoMap :=
  let files := rm.Files.filter (fun fi => containsLower fi.Path substr)
  let matchedFiles : String → Bool := fun p => files.any (fun fi => fi.Path = p)
  let deps := rm.Dependencies.filter (fun d =>
    matchedFiles d.Source || matchedFiles d.Target)
  let defToFileDom : String → Bool := fun name =>
    files.any (fun fi => fi.Tags.any (fun t =>
      t.Kind = TagKind.Definition ∧ t.Name = name))
  let callEdges := rm.CallEdges.filter (fun ce => defToFileDom ce.Caller)
  let callSites := rm.CallSites.filter (fun cs => matchedFiles cs.File)
  { RepoName := rm.RepoName
    Root := rm.Root
    Files := files
    Dependencies := deps
    CallEdges := callEdges
    CallSites := callSites
    Members := [] }

/-! ## Tag extractor: the `definition.field` branch (modelled from the spec)

The repository's current `internal/parse/parse.go` — the version whose
`captureMap` carries a `definition.field` entry and whose `ExtractTags`
consumes the adapters' `FindEnclosingType` callbacks — is not among the
source snapshots; only its callers and witnesses are: the tree-sitter
queries emit `@definition.field` captures, `lang/python.go` and
`lang/ruby.go` register `FindEnclosingType`, and `parse_test.go` tests
field extraction.  The snapshots of `parse.go` that are present predate
field support (their `captureMap` has no `definition.field` entry). -/

namespace SpecParse

/-- Modelled from the spec: the `definition.field` branch of the Tag
Extractor's per-match processing (spec §4.E step 5 and §9
"Field-in-method exclusion"), which is missing from the `src/` snapshots
of `internal/parse/parse.go`.  Given a match carrying an `@name` capture
(text `nameText`, at 1-based `line`) and a `@definition.field` pattern
capture on `node`: if the language's `find_enclosing_type` adapter yields
a type, the extractor produces a `(Definition, Field)` tag qualified as
`Type.name` with its signature from `extract_signature`; if it yields
`""` (the adapter's signal that the capture lies inside a function body
rather than at class level) the capture is dropped. -/
def processFieldMatch {Node : Type} (findEnclosingType : Node → String)
    (extractSignature : Node → String) (node : Node) (nameText : String)
    (line : Nat) (file : String) : Option Repoguide.Tag :=
  let typeName := findEnclosingType node
  if typeName = "" then none
  else some
    { Name := typeName ++ "." ++ nameText
      Kind := Repoguide.TagKind.Definition
      SymbolKind := Repoguide.SymbolKind.Field
      Line := line
      File := file
      Signature := extractSignature node
      Enclosing := "" }

end SpecParse

/-! ## Order facts for the sort comparators -/

theorem lexStep_trans {P Q R : Prop} {a b c : String}
    (hab : strLt a b ∨ (a = b ∧ P)) (hbc : strLt b c ∨ (b = c ∧ Q))
    (hPQ : P → Q → R) : strLt a c ∨ (a = c ∧ R) := by
  rcases hab with hab | ⟨rfl, hp⟩
  · rcases hbc with hbc | ⟨rfl, _⟩
    · exact Or.inl (strLt_trans hab hbc)
    · exact Or.inl hab
  · rcases hbc with hbc | ⟨rfl, hq⟩
    · exact Or.inl hbc
    · exact Or.inr ⟨rfl, hPQ hp hq⟩

theorem lexStep_total {P Q : Prop} {a b : String} (h : a = b → P ∨ Q) :
    (strLt a b ∨ (a = b ∧ P)) ∨ (strLt b a ∨ (b = a ∧ Q)) := by
  rcases strLe_total a b with (hlt | heq) | (hlt | heq)
  · exact Or.inl (Or.inl hlt)
  · rcases h heq with hp | hq
    · exact Or.inl (Or.inr ⟨heq, hp⟩)
    · exact Or.inr (Or.inr ⟨heq.symm, hq⟩)
  · exact Or.inr (Or.inl hlt)
  · rcases h heq.symm with hp | hq
    · exact Or.inl (Or.inr ⟨heq.symm, hp⟩)
    · exact Or.inr (Or.inr ⟨heq, hq⟩)

instance : IsTrans Dependency depLe :=
  ⟨fun _ _ _ hab hbc => lexStep_trans hab hbc (fun h1 h2 => strLe_trans h1 h2)⟩

instance : IsTotal Dependency depLe :=
  ⟨fun a b => lexStep_total (fun _ => by
    rcases strLe_total a.Target b.Target with h | h
    · exact Or.inl h
    · exact Or.inr h)⟩

instance : IsTrans CallEdge edgeLe :=
  ⟨fun _ _ _ hab hbc => lexStep_trans hab hbc (fun h1 h2 => strLe_trans h1 h2)⟩

instance : IsTotal CallEdge edgeLe :=
  ⟨fun a b => lexStep_total (fun _ => by
    rcases strLe_total a.Callee b.Callee with h | h
    · exact Or.inl h
    · exact Or.inr h)⟩

instance : IsTrans CallSite siteLe :=
  ⟨fun _ _ _ hab hbc =>
    lexStep_trans hab hbc (fun h1 h2 =>
      lexStep_trans h1 h2 (fun g1 g2 =>
        lexStep_trans g1 g2 (fun l1 l2 => Nat.le_trans l1 l2)))⟩

instance : IsTotal CallSite siteLe :=
  ⟨fun a b => lexStep_total (fun _ =>
    lexStep_total (fun _ =>
      lexStep_total (fun _ => Nat.le_total a.Line b.Line)))⟩

instance : IsTrans FileInfo fileLe :=
  ⟨fun _ _ _ hab hbc => le_trans hbc hab⟩

instance : IsTotal FileInfo fileLe :=
  ⟨fun a b => le_total b.Rank a.Rank⟩

/-! ## Helper lemmas about `firstDedup` and `addEdgeSym` -/

theorem mem_firstDedupF {α : Type} [DecidableEq α] :
    ∀ {n : Nat} {l : List α} {x : α}, l.length ≤ n →
      (x ∈ firstDedupF n l ↔ x ∈ l) := by
  intro n
  induction n with
  | zero =>
    intro l x hn
    have : l = [] := List.eq_nil_of_length_eq_zero (Nat.le_zero.mp hn)
    subst this
    simp [firstDedupF]
  | succ k ih =>
    intro l x hn
    cases l with
    | nil => simp [firstDedupF]
    | cons a t =>
      simp only [firstDedupF, List.mem_cons]
      have ht : (t.filter (fun y => y ≠ a)).length ≤ k := by
        have := List.length_filter_le (fun y => decide (y ≠ a)) t
        simp only [List.length_cons] at hn
        omega
      rw [ih ht]
      constructor
      · rintro (rfl | hx)
        · exact Or.inl rfl
        · exact Or.inr (List.mem_of_mem_filter hx)
      · rintro (rfl | hx)
        · exact Or.inl rfl
        · by_cases hxa : x = a
          · exact Or.inl hxa
          · exact Or.inr (List.mem_filter.mpr ⟨hx, by simp [hxa]⟩)

theorem mem_firstDedup {α : Type} [DecidableEq α] {l : List α} {x : α} :
    x ∈ firstDedup l ↔ x ∈ l :=
  mem_firstDedupF (Nat.le_refl _)

theorem nodup_firstDedupF {α : Type} [DecidableEq α] :
    ∀ {n : Nat} {l : List α}, l.length ≤ n → (firstDedupF n l).Nodup := by
  intro n
  induction n with
  | zero => intro l _; simp [firstDedupF]
  | succ k ih =>
    intro l hn
    cases l with
    | nil => simp [firstDedupF]
    | cons a t =>
      simp only [firstDedupF]
      have ht : (t.filter (fun y => y ≠ a)).length ≤ k := by
        have := List.length_filter_le (fun y => decide (y ≠ a)) t
        simp only [List.length_cons] at hn
        omega
      refine List.nodup_cons.mpr ⟨?_, ih ht⟩
      intro hmem
      have := (mem_firstDedupF ht).mp hmem
      have := List.mem_filter.mp this
      simp at this

theorem nodup_firstDedup {α : Type} [DecidableEq α] (l : List α) :
    (firstDedup l).Nodup :=
  nodup_firstDedupF (Nat.le_refl _)

theorem firstDedup_append_singleton_aux {α : Type} [DecidableEq α] :
    ∀ (n : Nat) (l : List α), l.length ≤ n → ∀ (x : α),
      firstDedup (l ++ [x]) =
        if x ∈ l then firstDedup l else firstDedup l ++ [x] := by
  intro n
  induction n with
  | zero =>
    intro l hl x
    have : l = [] := List.eq_nil_of_length_eq_zero (Nat.le_zero.mp hl)
    subst this
    simp [firstDedup, firstDedupF]
  | succ k ih =>
    intro l hl x
    cases l with
    | nil => simp [firstDedup, firstDedupF]
    | cons a t =>
      rw [List.cons_append, firstDedup_cons, firstDedup_cons]
      by_cases hxa : x = a
      · subst hxa
        have heq : (t ++ [x]).filter (fun y => y ≠ x) = t.filter (fun y => y ≠ x) := by
          rw [List.filter_append]
          simp
        rw [heq]
        simp
      · have hfilter : (t ++ [x]).filter (fun y => y ≠ a) =
            t.filter (fun y => y ≠ a) ++ [x] := by
          rw [List.filter_append]
          simp [hxa]
        rw [hfilter]
        have hlen : (t.filter (fun y => y ≠ a)).length ≤ k := by
          have := List.length_filter_le (fun y => decide (y ≠ a)) t
          simp only [List.length_cons] at hl
          omega
        rw [ih _ hlen x]
        have hmem : x ∈ t.filter (fun y => y ≠ a) ↔ x ∈ a :: t := by
          rw [List.mem_filter]
          simp [hxa]
        by_cases hx : x ∈ a :: t
        · rw [if_pos (hmem.mpr hx), if_pos hx]
        · rw [if_neg (fun hc => hx (hmem.mp hc)), if_neg hx]
          simp

theorem firstDedup_append_singleton {α : Type} [DecidableEq α] (l : List α) (x : α) :
    firstDedup (l ++ [x]) =
      if x ∈ l then firstDedup l else firstDedup l ++ [x] :=
  firstDedup_append_singleton_aux l.length l (Nat.le_refl _) x

theorem contains_iff_mem (slice : List String) (s : String) :
    contains slice s = true ↔ s ∈ slice := by
  simp only [contains, List.any_eq_true, decide_eq_true_eq]
  constructor
  · rintro ⟨v, hv, rfl⟩; exact hv
  · intro h; exact ⟨s, h, rfl⟩

/-- Keys appearing in `addEdgeSym acc key name` are the old keys plus
`key`; so any key predicate preserved by the accumulator and satisfied by
the contribution holds of the result. -/
theorem addEdgeSym_keyP (P : String × String → Prop) :
    ∀ (acc : List ((String × String) × List String)) (key : String × String)
      (name : String), (∀ e ∈ acc, P e.1) → P key →
      ∀ e ∈ addEdgeSym acc key name, P e.1 := by
  intro acc
  induction acc with
  | nil =>
    intro key name _ hkey e he
    simp only [addEdgeSym, List.mem_singleton] at he
    subst he
    exact hkey
  | cons hd tl ih =>
    intro key name hacc hkey e he
    obtain ⟨k, syms⟩ := hd
    simp only [addEdgeSym] at he
    by_cases hk : k = key
    · rw [if_pos hk] at he
      by_cases hc : contains syms name
      · rw [if_pos hc] at he
        exact hacc e he
      · rw [if_neg hc] at he
        rcases List.mem_cons.mp he with rfl | he2
        · exact hacc (k, syms) (List.mem_cons_self _ _)
        · exact hacc e (List.mem_cons_of_mem _ he2)
    · rw [if_neg hk] at he
      rcases List.mem_cons.mp he with rfl | he2
      · exact hacc (k, syms) (List.mem_cons_self _ _)
      · exact ih key name (fun x hx => hacc x (List.mem_cons_of_mem _ hx)) hkey e he2

/-- `foldl addEdgeSym` invariant on keys. -/
theorem foldl_addEdgeSym_keyP (P : String × String → Prop) :
    ∀ (ps : List ((String × String) × String))
      (acc : List ((String × String) × List String)),
      (∀ e ∈ acc, P e.1) → (∀ p ∈ ps, P p.1) →
      ∀ e ∈ ps.foldl (fun a p => addEdgeSym a p.1 p.2) acc, P e.1 := by
  intro ps
  induction ps with
  | nil => intro acc hacc _ e he; exact hacc e he
  | cons p tl ih =>
    intro acc hacc hps e he
    simp only [List.foldl_cons] at he
    exact ih _ (addEdgeSym_keyP P acc p.1 p.2 hacc (hps p (List.mem_cons_self _ _)))
      (fun q hq => hps q (List.mem_cons_of_mem _ hq)) e he

/-! ## Fixtures used by witnesses and counterexamples -/

/-- A file whose reference to `bar` is enclosed by `ghost`, a name never
defined anywhere. -/
def fiGhost : FileInfo :=
  { Path := "a.py", Language := "python"
    Tags := [
      { Name := "bar", Kind := .Definition, SymbolKind := .Function,
        Line := 1, File := "a.py", Signature := "", Enclosing := "" },
      { Name := "bar", Kind := .Reference, SymbolKind := .Function,
        Line := 7, File := "a.py", Signature := "", Enclosing := "ghost" }]
    Rank := 0 }

/-- A file referencing `foo` (defined in `fiDef`). -/
def fiRef : FileInfo :=
  { Path := "a.py", Language := "python"
    Tags := [
      { Name := "foo", Kind := .Reference, SymbolKind := .Function,
        Line := 1, File := "a.py", Signature := "", Enclosing := "" }]
    Rank := 0 }

/-- A file defining `foo`. -/
def fiDef : FileInfo :=
  { Path := "b.py", Language := "python"
    Tags := [
      { Name := "foo", Kind := .Definition, SymbolKind := .Function,
        Line := 1, File := "b.py", Signature := "", Enclosing := "" }]
    Rank := 0 }

/-- A file that both defines and references `foo`. -/
def fiSelf : FileInfo :=
  { Path := "a.py", Language := "python"
    Tags := [
      { Name := "foo", Kind := .Definition, SymbolKind := .Function,
        Line := 1, File := "a.py", Signature := "", Enclosing := "" },
      { Name := "foo", Kind := .Reference, SymbolKind := .Function,
        Line := 2, File := "a.py", Signature := "", Enclosing := "" }]
    Rank := 0 }

/-- The call-site fixture: `foo` calls `bar` twice, one module-level
reference to `bar`, one reference to the unknown `print`. -/
def fiSites : FileInfo :=
  { Path := "a.py", Language := "python"
    Tags := [
      { Name := "bar", Kind := .Definition, SymbolKind := .Function,
        Line := 1, File := "a.py", Signature := "", Enclosing := "" },
      { Name := "foo", Kind := .Definition, SymbolKind := .Function,
        Line := 2, File := "a.py", Signature := "", Enclosing := "" },
      { Name := "bar", Kind := .Reference, SymbolKind := .Function,
        Line := 10, File := "a.py", Signature := "", Enclosing := "foo" },
      { Name := "bar", Kind := .Reference, SymbolKind := .Function,
        Line := 20, File := "a.py", Signature := "", Enclosing := "foo" },
      { Name := "bar", Kind := .Reference, SymbolKind := .Function,
        Line := 5, File := "a.py", Signature := "", Enclosing := "" },
      { Name := "print", Kind := .Reference, SymbolKind := .Function,
        Line := 15, File := "a.py", Signature := "", Enclosing := "foo" }]
    Rank := 0 }

/-! ## Claims C1, C6, C10 -/

/-- Claim C1 (amended): every CallEdge emitted by `BuildCallGraph` has a
non-empty caller and a callee that appears as a Definition tag name in
the input.  (The original claim also required the caller to be a
Definition name; `BuildCallGraph` never checks the caller against the
definition set, see `C1_counterexample`.) -/
theorem C1_call_edges_callee_known (fileInfos : List FileInfo) :
    ∀ e ∈ BuildCallGraph fileInfos,
      e.Caller ≠ "" ∧ e.Callee ∈ knownDefs fileInfos := by
  intro e he
  simp only [BuildCallGraph] at he
  have h1 : e ∈ firstDedup (fileInfos.flatMap (fun fi =>
      (fi.Tags.filter (fun t =>
        t.Kind = TagKind.Reference ∧ t.Enclosing ≠ "" ∧
        t.Name ∈ knownDefs fileInfos)).map
        (fun t => { Caller := t.Enclosing, Callee := t.Name }))) :=
    (List.perm_insertionSort _ _).mem_iff.mp he
  have h2 := mem_firstDedup.mp h1
  simp only [List.mem_flatMap, List.mem_map, List.mem_filter,
    decide_eq_true_eq] at h2
  obtain ⟨fi, _, t, ⟨_, ⟨_, henc, hknown⟩⟩, rfl⟩ := h2
  exact ⟨henc, hknown⟩

/-- Claim C1, counterexample to the frozen statement: in `[fiGhost]` the
edge `ghost → bar` is emitted although `ghost` is not a Definition name
anywhere in the input. -/
theorem C1_counterexample :
    ¬ (∀ e ∈ BuildCallGraph [fiGhost],
        e.Caller ≠ "" ∧ e.Caller ∈ knownDefs [fiGhost] ∧
        e.Callee ∈ knownDefs [fiGhost]) := by decide

/-- Claim C1, witness for the amended theorem at a concrete input. -/
theorem C1_witness :
    BuildCallGraph [fiGhost] = [{ Caller := "ghost", Callee := "bar" }] ∧
    (({ Caller := "ghost", Callee := "bar" } : CallEdge).Caller ≠ "" ∧
      ({ Caller := "ghost", Callee := "bar" } : CallEdge).Callee ∈
        knownDefs [fiGhost]) :=
  ⟨by decide, C1_call_edges_callee_known [fiGhost] _ (by decide)⟩

/-- Claim C6: no Dependency produced by `BuildGraph` is a self-edge. -/
theorem C6_no_self_edges (fileInfos : List FileInfo) :
    ∀ d ∈ BuildGraph fileInfos, d.Source ≠ d.Target := by
  intro d hd
  simp only [BuildGraph] at hd
  have h1 : d ∈ (edgeSymbols fileInfos).map (fun e =>
      ({ Source := e.1.1, Target := e.1.2, Symbols := e.2 } : Dependency)) :=
    (List.perm_insertionSort _ _).mem_iff.mp hd
  obtain ⟨e, he, rfl⟩ := List.mem_map.mp h1
  have hkeys : ∀ x ∈ edgeSymbols fileInfos, x.1.1 ≠ x.1.2 := by
    apply foldl_addEdgeSym_keyP (fun k => k.1 ≠ k.2) (refContribs fileInfos) []
    · intro x hx; exact absurd hx (List.not_mem_nil x)
    · intro p hp
      simp only [refContribs, List.mem_flatMap, List.mem_map,
        List.mem_filter, decide_eq_true_eq] at hp
      obtain ⟨fi, -, t, -, defFile, ⟨-, hdf⟩, rfl⟩ := hp
      exact fun hc => hdf (congrArg id hc).symm
  exact hkeys e he

/-- Claim C6, witness: the two-file scenario yields the edge
`a.py → b.py`, whose endpoints differ. -/
theorem C6_witness :
    ({ Source := "a.py", Target := "b.py", Symbols := ["foo"] } : Dependency) ∈
      BuildGraph [fiRef, fiDef] ∧
    ({ Source := "a.py", Target := "b.py", Symbols := ["foo"] } :
      Dependency).Source ≠
      ({ Source := "a.py", Target := "b.py", Symbols := ["foo"] } :
        Dependency).Target :=
  ⟨by decide, C6_no_self_edges [fiRef, fiDef] _ (by decide)⟩

/-- Claim C10: for `0 < maxFiles < len(Files)`, the RepoMap returned by
`SelectFiles` has an empty Members list (the top-N branch rebuilds the
RepoMap without carrying members through). -/
theorem C10_select_files_members_empty (rm : RepoMap) (maxFiles : Int)
    (h1 : 0 < maxFiles) (h2 : maxFiles < (rm.Files.length : Int)) :
    (SelectFiles rm maxFiles).Members = [] := by
  unfold SelectFiles
  rw [if_neg]
  push_neg
  exact ⟨h1, h2⟩

/-- A RepoMap fixture with a non-empty Members list and two files. -/
def rmMembers : RepoMap :=
  { RepoName := "t"
    Root := "t"
    Files := [fiRef, fiDef]
    Dependencies := []
    CallEdges := []
    CallSites := []
    Members := [
      { Name := "Beat.id", Kind := .Definition, SymbolKind := .Field,
        Line := 3, File := "b.py", Signature := "id int", Enclosing := "" }] }

/-- Claim C10, witness: `rmMembers` has non-empty Members and two files;
truncated to one file it comes back with empty Members. -/
theorem C10_witness :
    (0 : Int) < 1 ∧ (1 : Int) < (rmMembers.Files.length : Int) ∧
    rmMembers.Members ≠ [] ∧ (SelectFiles rmMembers 1).Members = [] :=
  ⟨by decide, by decide, by decide,
    C10_select_files_members_empty rmMembers 1 (by decide) (by decide)⟩

/-! ## Claim C5 — call sites -/

/-- Claim C5: `BuildCallSites` emits one CallSite per Reference occurrence
whose name is a known Definition (no de-duplication — the output is a
permutation of the per-occurrence list `occSites`, which records file and
line and substitutes the sentinel caller `<import>` for an empty
enclosing scope); the output is sorted by `(caller, callee, file, line)`;
and every module-level qualifying reference occurrence contributes a
CallSite with caller `<import>`. -/
theorem C5_call_sites_per_occurrence (fileInfos : List FileInfo) :
    (BuildCallSites fileInfos).Perm (occSites fileInfos) ∧
    List.Pairwise siteLe (BuildCallSites fileInfos) ∧
    (∀ fi ∈ fileInfos, ∀ t ∈ fi.Tags, t.Kind = TagKind.Reference →
      t.Name ∈ knownDefs fileInfos → t.Enclosing = "" →
      ({ Caller := "<import>", Callee := t.Name, File := fi.Path,
         Line := t.Line } : CallSite) ∈ BuildCallSites fileInfos) := by
  refine ⟨List.perm_insertionSort _ _, List.sorted_insertionSort siteLe _, ?_⟩
  intro fi hfi t ht hkind hknown henc
  refine ((List.perm_insertionSort siteLe (occSites fileInfos)).mem_iff).mpr ?_
  simp only [occSites, List.mem_flatMap, List.mem_map, List.mem_filter,
    decide_eq_true_eq]
  refine ⟨fi, hfi, t, ⟨ht, hkind, hknown⟩, ?_⟩
  rw [if_pos henc]

/-- Claim C5, witness: the fixture with two calls of `foo → bar`, one
module-level reference to `bar` and one unknown callee produces exactly
three sites in sorted order, and the module-level tag's `<import>` site
is among them by the theorem. -/
theorem C5_witness :
    BuildCallSites [fiSites] = [
      { Caller := "<import>", Callee := "bar", File := "a.py", Line := 5 },
      { Caller := "foo", Callee := "bar", File := "a.py", Line := 10 },
      { Caller := "foo", Callee := "bar", File := "a.py", Line := 20 }] ∧
    ({ Caller := "<import>", Callee := "bar", File := fiSites.Path,
       Line := 5 } : CallSite) ∈ BuildCallSites [fiSites] :=
  ⟨by decide,
    (C5_call_sites_per_occurrence [fiSites]).2.2 fiSites (by decide)
      { Name := "bar", Kind := .Reference, SymbolKind := .Function,
        Line := 5, File := "a.py", Signature := "", Enclosing := "" }
      (by decide) (by decide) (by decide) (by decide)⟩

/-! ## Claim C7 — dependency symbol lists -/

/-- The subsequence of reference contributions that target one edge key,
in reference order: the names graph.go appends (with the `contains`
check) to that edge's symbol list. -/
def relevantSyms (ps : List ((String × String) × String))
    (key : String × String) : List String :=
  (ps.filter (fun p => p.1 = key)).map (fun p => p.2)

theorem addEdgeSym_mem_ne {acc : List ((String × String) × List String)}
    {key key2 : String × String} {name : String} {syms : List String}
    (hne : key2 ≠ key) :
    (key2, syms) ∈ addEdgeSym acc key name ↔ (key2, syms) ∈ acc := by
  induction acc with
  | nil =>
    simp only [addEdgeSym, List.mem_singleton, List.not_mem_nil, iff_false]
    intro hc
    exact hne (congrArg Prod.fst hc)
  | cons hd tl ih =>
    obtain ⟨k, s⟩ := hd
    simp only [addEdgeSym]
    by_cases hk : k = key
    · rw [if_pos hk]
      by_cases hc : contains s name
      · rw [if_pos hc]
      · rw [if_neg hc]
        simp only [List.mem_cons]
        constructor
        · rintro (h | h)
          · exact absurd (congrArg Prod.fst h) (by simpa [hk] using hne)
          · exact Or.inr h
        · rintro (h | h)
          · exact absurd (congrArg Prod.fst h) (by simpa [hk] using hne)
          · exact Or.inr h
    · rw [if_neg hk]
      simp only [List.mem_cons, ih]

theorem addEdgeSym_keys (acc : List ((String × String) × List String))
    (key : String × String) (name : String) :
    (addEdgeSym acc key name).map (fun e => e.1) =
      if key ∈ acc.map (fun e => e.1) then acc.map (fun e => e.1)
      else acc.map (fun e => e.1) ++ [key] := by
  induction acc with
  | nil => simp [addEdgeSym]
  | cons hd tl ih =>
    obtain ⟨k, s⟩ := hd
    simp only [addEdgeSym, List.map_cons]
    by_cases hk : k = key
    · rw [if_pos hk]
      have : key ∈ k :: tl.map (fun e => e.1) := by
        rw [hk]; exact List.mem_cons_self _ _
      rw [if_pos this]
      by_cases hc : contains s name
      · rw [if_pos hc]; rfl
      · rw [if_neg hc]; rfl
    · rw [if_neg hk, List.map_cons, ih]
      by_cases hmem : key ∈ tl.map (fun e => e.1)
      · rw [if_pos hmem, if_pos (List.mem_cons_of_mem _ hmem)]
      · rw [if_neg hmem, if_neg ?_]
        · rfl
        · intro hc
          rcases List.mem_cons.mp hc with h | h
          · exact hk h.symm
          · exact hmem h

theorem addEdgeSym_cons_self (k : String × String) (s0 : List String)
    (tl : List ((String × String) × List String)) (name : String) :
    addEdgeSym ((k, s0) :: tl) k name =
      if contains s0 name then (k, s0) :: tl else (k, s0 ++ [name]) :: tl := by
  simp [addEdgeSym]

theorem addEdgeSym_mem_self_present
    {acc : List ((String × String) × List String)}
    {key : String × String} {name : String} {s : List String}
    (hnd : (acc.map (fun e => e.1)).Nodup) (hmem : (key, s) ∈ acc) :
    ∀ syms2, ((key, syms2) ∈ addEdgeSym acc key name ↔
      syms2 = if contains s name then s else s ++ [name]) := by
  induction acc with
  | nil => exact absurd hmem (List.not_mem_nil _)
  | cons hd tl ih =>
    obtain ⟨k, s0⟩ := hd
    intro syms2
    simp only [List.map_cons, List.nodup_cons] at hnd
    by_cases hk : k = key
    · subst hk
      have hs : s0 = s := by
        rcases List.mem_cons.mp hmem with h | h
        · exact (Prod.mk.injEq _ _ _ _ ▸ h.symm).2
        · exact absurd (List.mem_map.mpr ⟨(k, s), h, rfl⟩) hnd.1
      subst hs
      rw [addEdgeSym_cons_self]
      by_cases hc : contains s0 name
      · simp only [if_pos hc]
        constructor
        · intro h
          rcases List.mem_cons.mp h with h2 | h2
          · exact ((Prod.mk.injEq _ _ _ _).mp h2.symm).2.symm
          · exact absurd (List.mem_map.mpr ⟨(k, syms2), h2, rfl⟩) hnd.1
        · rintro rfl
          exact List.mem_cons_self _ _
      · simp only [if_neg hc]
        constructor
        · intro h
          rcases List.mem_cons.mp h with h2 | h2
          · exact ((Prod.mk.injEq _ _ _ _).mp h2.symm).2.symm
          · exact absurd (List.mem_map.mpr ⟨(k, syms2), h2, rfl⟩) hnd.1
        · rintro rfl
          exact List.mem_cons_self _ _
    · have hmem2 : (key, s) ∈ tl := by
        rcases List.mem_cons.mp hmem with h | h
        · exact absurd (congrArg Prod.fst h).symm hk
        · exact h
      simp only [addEdgeSym, if_neg hk, List.mem_cons]
      rw [ih hnd.2 hmem2 syms2]
      constructor
      · rintro (h | h)
        · exact absurd (congrArg Prod.fst h).symm hk
        · exact h
      · intro h
        exact Or.inr h

theorem addEdgeSym_mem_self_absent
    {acc : List ((String × String) × List String)}
    {key : String × String} {name : String}
    (habs : key ∉ acc.map (fun e => e.1)) :
    ∀ syms2, ((key, syms2) ∈ addEdgeSym acc key name ↔ syms2 = [name]) := by
  induction acc with
  | nil =>
    intro syms2
    simp [addEdgeSym]
  | cons hd tl ih =>
    obtain ⟨k, s0⟩ := hd
    intro syms2
    simp only [List.map_cons, List.mem_cons, not_or] at habs
    have hk : k ≠ key := fun h => habs.1 h.symm
    simp only [addEdgeSym, if_neg hk, List.mem_cons]
    rw [ih habs.2 syms2]
    constructor
    · rintro (h | h)
      · exact absurd (congrArg Prod.fst h).symm hk
      · exact h
    · intro h
      exact Or.inr h

theorem relevantSyms_append (ps : List ((String × String) × String))
    (p : (String × String) × String) (key : String × String) :
    relevantSyms (ps ++ [p]) key =
      relevantSyms ps key ++ (if p.1 = key then [p.2] else []) := by
  simp only [relevantSyms, List.filter_append, List.map_append]
  congr 1
  by_cases hp : p.1 = key
  · simp [hp]
  · simp [hp]

/-- Full characterization of the accumulated `edgeSymbols` association
list: keys are duplicate-free, every contributed key is present, and each
entry's symbol list is exactly the first-occurrence de-duplication of the
contributions targeting that key, hence non-empty. -/
theorem foldl_addEdgeSym_spec (ps : List ((String × String) × String)) :
    ((ps.foldl (fun a p => addEdgeSym a p.1 p.2) []).map (fun e => e.1)).Nodup ∧
    (∀ key, relevantSyms ps key ≠ [] →
      key ∈ (ps.foldl (fun a p => addEdgeSym a p.1 p.2) []).map (fun e => e.1)) ∧
    (∀ key syms, (key, syms) ∈ ps.foldl (fun a p => addEdgeSym a p.1 p.2) [] →
      syms = firstDedup (relevantSyms ps key) ∧ syms ≠ []) := by
  induction ps using List.reverseRecOn with
  | nil =>
    refine ⟨by simp, ?_, ?_⟩
    · intro key h
      exact absurd rfl h
    · intro key syms h
      exact absurd h (List.not_mem_nil _)
  | append_singleton ps p ih =>
    obtain ⟨ihnd, ihpres, ihchar⟩ := ih
    have hfold : (ps ++ [p]).foldl (fun a q => addEdgeSym a q.1 q.2) [] =
        addEdgeSym (ps.foldl (fun a q => addEdgeSym a q.1 q.2) []) p.1 p.2 := by
      rw [List.foldl_append, List.foldl_cons, List.foldl_nil]
    refine ⟨?_, ?_, ?_⟩
    · rw [hfold, addEdgeSym_keys]
      by_cases hmem : p.1 ∈ (ps.foldl (fun a q => addEdgeSym a q.1 q.2) []).map
          (fun e => e.1)
      · rw [if_pos hmem]; exact ihnd
      · rw [if_neg hmem]
        exact List.Nodup.append ihnd (List.nodup_singleton _)
          (by simpa [List.disjoint_singleton] using hmem)
    · intro key hrel
      rw [hfold, addEdgeSym_keys]
      rw [relevantSyms_append] at hrel
      by_cases hpk : p.1 = key
      · by_cases hmem : p.1 ∈ (ps.foldl (fun a q => addEdgeSym a q.1 q.2) []).map
            (fun e => e.1)
        · rw [if_pos hmem]; rw [← hpk]; exact hmem
        · rw [if_neg hmem]
          rw [← hpk]
          exact List.mem_append_right _ (List.mem_singleton.mpr rfl)
      · rw [if_neg hpk, List.append_nil] at hrel
        have := ihpres key hrel
        by_cases hmem : p.1 ∈ (ps.foldl (fun a q => addEdgeSym a q.1 q.2) []).map
            (fun e => e.1)
        · rw [if_pos hmem]; exact this
        · rw [if_neg hmem]; exact List.mem_append_left _ this
    · intro key syms hks
      rw [hfold] at hks
      rw [relevantSyms_append]
      by_cases hpk : p.1 = key
      · subst hpk
        rw [if_pos rfl]
        by_cases hmem : p.1 ∈ (ps.foldl (fun a q => addEdgeSym a q.1 q.2) []).map
            (fun e => e.1)
        · obtain ⟨e, he, hfst⟩ := List.mem_map.mp hmem
          obtain ⟨k0, s0⟩ := e
          have hk0 : k0 = p.1 := hfst
          subst hk0
          obtain ⟨hchar0, hne0⟩ := ihchar p.1 s0 he
          have := (addEdgeSym_mem_self_present ihnd he syms).mp hks
          rw [firstDedup_append_singleton]
          subst hchar0
          by_cases hin : p.2 ∈ relevantSyms ps p.1
          · rw [if_pos hin]
            have hc : contains (firstDedup (relevantSyms ps p.1)) p.2 = true :=
              (contains_iff_mem _ _).mpr (mem_firstDedup.mpr hin)
            rw [if_pos hc] at this
            exact ⟨this, this ▸ hne0⟩
          · rw [if_neg hin]
            have hc : ¬ contains (firstDedup (relevantSyms ps p.1)) p.2 = true :=
              fun h => hin (mem_firstDedup.mp ((contains_iff_mem _ _).mp h))
            rw [if_neg hc] at this
            refine ⟨this, ?_⟩
            rw [this]
            simp
        · have hrel0 : relevantSyms ps p.1 = [] := by
            by_contra hne
            exact hmem (ihpres p.1 hne)
          have := (addEdgeSym_mem_self_absent hmem syms).mp hks
          rw [hrel0]
          subst this
          constructor
          · rw [List.nil_append, firstDedup_cons]
            simp [firstDedup_nil]
          · simp
      · rw [if_neg hpk, List.append_nil]
        exact ihchar key syms ((addEdgeSym_mem_ne (fun h => hpk h.symm)).mp hks)

/-- Claim C7: every Dependency emitted by `BuildGraph` carries a symbol
list that is duplicate-free, non-empty, and equal to the
first-occurrence de-duplication of the qualifying reference names for
that edge in reference order (so the order of first appearance is
preserved). -/
theorem C7_dependency_symbols (fileInfos : List FileInfo) :
    ∀ d ∈ BuildGraph fileInfos,
      d.Symbols.Nodup ∧ d.Symbols ≠ [] ∧
      d.Symbols =
        firstDedup (relevantSyms (refContribs fileInfos) (d.Source, d.Target)) := by
  intro d hd
  simp only [BuildGraph] at hd
  have h1 : d ∈ (edgeSymbols fileInfos).map (fun e =>
      ({ Source := e.1.1, Target := e.1.2, Symbols := e.2 } : Dependency)) :=
    (List.perm_insertionSort _ _).mem_iff.mp hd
  obtain ⟨e, he, rfl⟩ := List.mem_map.mp h1
  obtain ⟨⟨k1, k2⟩, syms⟩ := e
  have hchar := (foldl_addEdgeSym_spec (refContribs fileInfos)).2.2 (k1, k2) syms he
  exact ⟨hchar.1 ▸ nodup_firstDedup _, hchar.2, hchar.1⟩

/-- A file referencing `foo` twice and `foo` again later (exercising the
de-duplication inside one edge's symbol list). -/
def fiRefDup : FileInfo :=
  { Path := "a.py", Language := "python"
    Tags := [
      { Name := "foo", Kind := .Reference, SymbolKind := .Function,
        Line := 1, File := "a.py", Signature := "", Enclosing := "" },
      { Name := "baz", Kind := .Reference, SymbolKind := .Function,
        Line := 2, File := "a.py", Signature := "", Enclosing := "" },
      { Name := "foo", Kind := .Reference, SymbolKind := .Function,
        Line := 3, File := "a.py", Signature := "", Enclosing := "" }]
    Rank := 0 }

/-- A file defining `foo` and `baz`. -/
def fiDef2 : FileInfo :=
  { Path := "b.py", Language := "python"
    Tags := [
      { Name := "foo", Kind := .Definition, SymbolKind := .Function,
        Line := 1, File := "b.py", Signature := "", Enclosing := "" },
      { Name := "baz", Kind := .Definition, SymbolKind := .Function,
        Line := 2, File := "b.py", Signature := "", Enclosing := "" }]
    Rank := 0 }

/-- Claim C7, witness: duplicate references collapse to a first-seen
ordered, duplicate-free, non-empty symbol list `["foo", "baz"]`. -/
theorem C7_witness :
    BuildGraph [fiRefDup, fiDef2] =
      [{ Source := "a.py", Target := "b.py", Symbols := ["foo", "baz"] }] ∧
    (["foo", "baz"].Nodup ∧ (["foo", "baz"] : List String) ≠ [] ∧
      ["foo", "baz"] =
        firstDedup (relevantSyms (refContribs [fiRefDup, fiDef2])
          ("a.py", "b.py"))) :=
  ⟨by decide,
    C7_dependency_symbols [fiRefDup, fiDef2]
      { Source := "a.py", Target := "b.py", Symbols := ["foo", "baz"] }
      (by decide)⟩

/-! ## Claim C9 — `FilterByFile` idempotence -/

theorem filter_self_idem {α : Type} (p : α → Bool) (l : List α) :
    (l.filter p).filter p = l.filter p :=
  List.filter_eq_self.mpr (fun _ ha => (List.mem_filter.mp ha).2)

/-- Claim C9: `FilterByFile` is idempotent — applying it with the same
substring to its own output returns the same RepoMap (same files,
dependencies, call edges, call sites, and everything else). -/
theorem C9_filter_by_file_idempotent (rm : RepoMap) (substr : String) :
    FilterByFile (FilterByFile rm substr) substr = FilterByFile rm substr := by
  simp only [FilterByFile]
  rw [filter_self_idem]
  simp [RepoMap.mk.injEq, filter_self_idem]

/-! ## Claim C8 — one-hop call-graph expansion in `FilterBySymbol` -/

/-- Claim C8: `FilterBySymbol` expands through exactly one hop of the
call graph.  For each CallEdge `(u → v)`: if `u` is a matched symbol then
`v` is a related symbol, and if `v` is matched then `u` is related;
conversely every related symbol arises from such an edge (exactly one
hop); and every file defining a related symbol appears in the output's
file set. -/
theorem C8_one_hop_expansion (rm : RepoMap) (substr : String)
    (withMembers : Bool) :
    (∀ ce ∈ rm.CallEdges,
      (matchedSymbol rm substr withMembers ce.Caller = true →
        relatedSymbol rm substr withMembers ce.Callee = true) ∧
      (matchedSymbol rm substr withMembers ce.Callee = true →
        relatedSymbol rm substr withMembers ce.Caller = true)) ∧
    (∀ name, relatedSymbol rm substr withMembers name = true →
      ∃ ce ∈ rm.CallEdges,
        (matchedSymbol rm substr withMembers ce.Caller = true ∧
          ce.Callee = name) ∨
        (matchedSymbol rm substr withMembers ce.Callee = true ∧
          ce.Caller = name)) ∧
    (∀ fi ∈ rm.Files,
      (∃ t ∈ fi.Tags, t.Kind = TagKind.Definition ∧
        relatedSymbol rm substr withMembers t.Name = true) →
      fi.Path ∈ (FilterBySymbol rm substr withMembers).Files.map
        (fun f => f.Path)) := by
  refine ⟨?_, ?_, ?_⟩
  · intro ce hce
    constructor
    · intro hm
      simp only [relatedSymbol, List.any_eq_true, decide_eq_true_eq]
      exact ⟨ce, hce, Or.inl ⟨hm, rfl⟩⟩
    · intro hm
      simp only [relatedSymbol, List.any_eq_true, decide_eq_true_eq]
      exact ⟨ce, hce, Or.inr ⟨hm, rfl⟩⟩
  · intro name hrel
    simp only [relatedSymbol, List.any_eq_true, decide_eq_true_eq] at hrel
    obtain ⟨ce, hce, h⟩ := hrel
    exact ⟨ce, hce, h⟩
  · intro fi hfi ⟨t, ht, hkind, hrel⟩
    have hfm : fileMatched rm substr withMembers fi.Path = true := by
      simp only [fileMatched, List.any_eq_true, decide_eq_true_eq]
      exact ⟨fi, hfi, rfl, Or.inr (Or.inr ⟨t, ht, hkind, hrel⟩)⟩
    simp only [FilterBySymbol, List.map_map, List.mem_map]
    exact ⟨fi, List.mem_filter.mpr ⟨hfi, hfm⟩, rfl⟩

/-- The filter fixture from the ranking tests: `a.go` defines `Foo` and
`Bar`, `b.go` defines `Baz`, `c.go` defines `Qux`; call edges
`Foo → Baz` and `Qux → Foo`; call sites at `a.go:10`, `a.go:20`,
`c.go:5`. -/
def rmFilter : RepoMap :=
  { RepoName := "test"
    Root := "test"
    Files := [
      { Path := "a.go", Language := "go"
        Tags := [
          { Name := "Foo", Kind := .Definition, SymbolKind := .Function,
            Line := 1, File := "a.go", Signature := "", Enclosing := "" },
          { Name := "Bar", Kind := .Definition, SymbolKind := .Function,
            Line := 5, File := "a.go", Signature := "", Enclosing := "" }]
        Rank := 0 },
      { Path := "b.go", Language := "go"
        Tags := [
          { Name := "Baz", Kind := .Definition, SymbolKind := .Function,
            Line := 1, File := "b.go", Signature := "", Enclosing := "" }]
        Rank := 0 },
      { Path := "c.go", Language := "go"
        Tags := [
          { Name := "Qux", Kind := .Definition, SymbolKind := .Function,
            Line := 1, File := "c.go", Signature := "", Enclosing := "" }]
        Rank := 0 }]
    Dependencies := [
      { Source := "a.go", Target := "b.go", Symbols := ["Baz"] },
      { Source := "c.go", Target := "a.go", Symbols := ["Foo"] }]
    CallEdges := [
      { Caller := "Foo", Callee := "Baz" },
      { Caller := "Qux", Callee := "Foo" }]
    CallSites := [
      { Caller := "Foo", Callee := "Baz", File := "a.go", Line := 10 },
      { Caller := "Foo", Callee := "Baz", File := "a.go", Line := 20 },
      { Caller := "Qux", Callee := "Foo", File := "c.go", Line := 5 }]
    Members := [] }

/-- Claim C8, witness: filtering `rmFilter` by `"Foo"`, the edge
`Foo → Baz` makes `Baz` related, and `b.go` (which defines `Baz`) lands
in the output file set — which is `[a.go, b.go, c.go]`. -/
theorem C8_witness :
    (FilterBySymbol rmFilter "Foo" false).Files.map (fun f => f.Path) =
      ["a.go", "b.go", "c.go"] ∧
    relatedSymbol rmFilter "Foo" false "Baz" = true ∧
    "b.go" ∈ (FilterBySymbol rmFilter "Foo" false).Files.map (fun f => f.Path) :=
  ⟨by decide,
    ((C8_one_hop_expansion rmFilter "Foo" false).1
      { Caller := "Foo", Callee := "Baz" } (by decide)).1 (by decide),
    (C8_one_hop_expansion rmFilter "Foo" false).2.2
      { Path := "b.go", Language := "go"
        Tags := [
          { Name := "Baz", Kind := .Definition, SymbolKind := .Function,
            Line := 1, File := "b.go", Signature := "", Enclosing := "" }]
        Rank := 0 }
      (by decide)
      ⟨{ Name := "Baz", Kind := .Definition, SymbolKind := .Function,
          Line := 1, File := "b.go", Signature := "", Enclosing := "" },
        by decide, by decide, by decide⟩⟩

/-! ## Claim C3 — `definition.field` extraction (spec-modelled) -/

/-- Claim C3 (spec-modelled): for a match with an `@name` capture and the
`@definition.field` pattern capture, the extractor produces a
`(Definition, Field)` tag qualified as `Type.name` whenever
`find_enclosing_type` yields a type, and drops the capture when the
adapter reports it lies inside a function body (returns `""`). -/
theorem C3_field_capture_processing {Node : Type}
    (findEnclosingType extractSignature : Node → String) (node : Node)
    (nameText : String) (line : Nat) (file : String) :
    (∀ typeName, findEnclosingType node = typeName → typeName ≠ "" →
      SpecParse.processFieldMatch findEnclosingType extractSignature node
          nameText line file =
        some { Name := typeName ++ "." ++ nameText
               Kind := TagKind.Definition
               SymbolKind := SymbolKind.Field
               Line := line
               File := file
               Signature := extractSignature node
               Enclosing := "" }) ∧
    (findEnclosingType node = "" →
      SpecParse.processFieldMatch findEnclosingType extractSignature node
        nameText line file = none) := by
  constructor
  · intro typeName htype hne
    simp only [SpecParse.processFieldMatch, htype, if_neg hne]
  · intro htype
    simp [SpecParse.processFieldMatch, htype]

/-- Claim C3, witness: a concrete adapter placing the field inside class
`Beat` yields the qualified `(Definition, Field)` tag, and a concrete
adapter reporting a function body (empty type) drops the capture. -/
theorem C3_witness :
    ((fun _ : Unit => "Beat") () = "Beat" ∧ ("Beat" : String) ≠ "" ∧
      SpecParse.processFieldMatch (fun _ : Unit => "Beat")
          (fun _ => "id: int") () "id" 2 "models.py" =
        some { Name := "Beat.id", Kind := TagKind.Definition,
               SymbolKind := SymbolKind.Field, Line := 2,
               File := "models.py", Signature := "id: int",
               Enclosing := "" }) ∧
    ((fun _ : Unit => "") () = "" ∧
      SpecParse.processFieldMatch (fun _ : Unit => "")
        (fun _ => "x") () "x" 3 "models.py" = none) :=
  ⟨⟨rfl, by decide,
      (C3_field_capture_processing (fun _ : Unit => "Beat")
        (fun _ => "id: int") () "id" 2 "models.py").1 "Beat" rfl (by decide)⟩,
    ⟨rfl,
      (C3_field_capture_processing (fun _ : Unit => "")
        (fun _ => "x") () "x" 3 "models.py").2 rfl⟩⟩

/-! ## Claim C2 — the order produced by `Rank` -/

/-- Unfolding lemma for one step of the PageRank loop. -/
theorem prLoop_succ (nodes : List String) (edges : List (String × String))
    (alpha tol : ℚ) (k : Nat) (rank : String → ℚ) :
    prLoop nodes edges alpha tol (k + 1) rank =
      if prDiff nodes rank (prIter nodes edges alpha rank) < tol
      then prIter nodes edges alpha rank
      else prLoop nodes edges alpha tol k (prIter nodes edges alpha rank) := rfl

/-- Claim C2 (amended): after `Rank` runs, the file list is sorted by
descending rank.  (The frozen claim additionally asserted that ties are
broken by ascending path; the comparator only compares ranks and the
code applies no path tie-break, see `C2_counterexample`.) -/
theorem C2_rank_sorted_descending (fileInfos : List FileInfo)
    (deps : List Dependency) :
    List.Pairwise (fun a b : FileInfo => b.Rank ≤ a.Rank)
      (Rank fileInfos deps) := by
  unfold Rank
  split
  · next h =>
    have : fileInfos = [] := List.eq_nil_of_length_eq_zero h
    subst this
    exact List.Pairwise.nil
  · split
    · refine List.pairwise_map.mpr ?_
      refine List.pairwise_iff_forall_sublist.mpr ?_
      intro a b _
      exact le_refl _
    · exact List.sorted_insertionSort fileLe _

/-- Two tag-free files, listed with the lexicographically larger path
first. -/
def fiB2 : FileInfo :=
  { Path := "b.py", Language := "python", Tags := [], Rank := 0 }

/-- See `fiB2`. -/
def fiA2 : FileInfo :=
  { Path := "a.py", Language := "python", Tags := [], Rank := 0 }

/-- A symmetric dependency pair between `a.py` and `b.py`, giving both
files exactly equal PageRank. -/
def depsSym : List Dependency :=
  [{ Source := "a.py", Target := "b.py", Symbols := ["x"] },
   { Source := "b.py", Target := "a.py", Symbols := ["y"] }]

/-- The symmetric two-node PageRank instance is stationary at the uniform
vector: one iteration reproduces `1/2` at each node. -/
theorem prIter_sym (v : String) (hv : v ∈ (["b.py", "a.py"] : List String)) :
    prIter ["b.py", "a.py"] [("a.py", "b.py"), ("b.py", "a.py")] (17 / 20)
      (fun w => if w ∈ (["b.py", "a.py"] : List String)
        then 1 / ((["b.py", "a.py"] : List String).length : ℚ) else 0) v
      = 1 / 2 := by
  have hfilter : (["b.py", "a.py"] : List String).filter
      (fun w => outDeg [("a.py", "b.py"), ("b.py", "a.py")] w = 0) = [] := by
    decide
  have hdegA : outDeg [("a.py", "b.py"), ("b.py", "a.py")] "a.py" = 1 := by decide
  have hdegB : outDeg [("a.py", "b.py"), ("b.py", "a.py")] "b.py" = 1 := by decide
  have hmemA : ("a.py" : String) ∈ (["b.py", "a.py"] : List String) := by decide
  have hmemB : ("b.py" : String) ∈ (["b.py", "a.py"] : List String) := by decide
  simp only [prIter, hfilter, List.map_nil, List.sum_nil, List.foldl_cons,
    List.foldl_nil, hdegA, hdegB]
  rcases List.mem_cons.mp hv with rfl | hv2
  · rw [if_neg (by decide : ¬ ("b.py" : String) = "a.py"),
      if_pos rfl, if_pos hmemB, if_pos hmemA]
    norm_num
  · rcases List.mem_cons.mp hv2 with rfl | hv3
    · rw [if_pos rfl, if_neg (by decide : ¬ ("a.py" : String) = "b.py"),
        if_pos hmemA, if_pos hmemB]
      norm_num
    · exact absurd hv3 (List.not_mem_nil _)

/-- Full evaluation of `pageRank` on the symmetric instance. -/
theorem pageRank_sym (v : String) (hv : v ∈ (["b.py", "a.py"] : List String)) :
    pageRank ["b.py", "a.py"] [("a.py", "b.py"), ("b.py", "a.py")]
      (17 / 20) 100 (1 / 1000000) v = 1 / 2 := by
  have hdiff : prDiff ["b.py", "a.py"]
      (fun w => if w ∈ (["b.py", "a.py"] : List String)
        then 1 / ((["b.py", "a.py"] : List String).length : ℚ) else 0)
      (prIter ["b.py", "a.py"] [("a.py", "b.py"), ("b.py", "a.py")] (17 / 20)
        (fun w => if w ∈ (["b.py", "a.py"] : List String)
          then 1 / ((["b.py", "a.py"] : List String).length : ℚ) else 0)) = 0 := by
    simp only [prDiff, List.map_cons, List.map_nil, List.sum_cons, List.sum_nil]
    rw [prIter_sym "b.py" (by decide), prIter_sym "a.py" (by decide),
      if_pos (show ("b.py" : String) ∈ (["b.py", "a.py"] : List String) by decide),
      if_pos (show ("a.py" : String) ∈ (["b.py", "a.py"] : List String) by decide)]
    norm_num
  simp only [pageRank]
  rw [if_neg (by decide : ¬ (["b.py", "a.py"] : List String).length = 0)]
  rw [show (100 : Nat) = 99 + 1 from rfl, prLoop_succ, if_pos (by
    rw [hdiff]; norm_num)]
  exact prIter_sym v hv

/-- Claim C2, counterexample to the tie-break clause of the frozen claim:
on input `[fiB2, fiA2]` with the symmetric dependencies both files end
with rank `1/2`, yet `b.py` is listed before `a.py` — equal-rank files
are NOT in ascending path order (the sort keeps the pre-sort order of
ties; there is no path tie-break). -/
theorem C2_counterexample :
    ¬ List.Pairwise
        (fun a b : FileInfo => a.Rank = b.Rank → strLt a.Path b.Path)
        (Rank [fiB2, fiA2] depsSym) := by
  have hdedup : (["b.py", "a.py"] : List String).dedup = ["b.py", "a.py"] := by
    decide
  have hedges : depsSym.flatMap
      (fun d => d.Symbols.map (fun _ => (d.Source, d.Target))) =
      [("a.py", "b.py"), ("b.py", "a.py")] := by decide
  have hout : Rank [fiB2, fiA2] depsSym =
      [{ fiB2 with Rank := 1 / 2 }, { fiA2 with Rank := 1 / 2 }] := by
    unfold Rank
    rw [if_neg (by decide : ¬ ([fiB2, fiA2] : List FileInfo).length = 0),
      if_neg (by decide : ¬ depsSym.length = 0)]
    simp only [hedges, List.map_cons, List.map_nil]
    rw [show fiB2.Path = "b.py" from rfl, show fiA2.Path = "a.py" from rfl, hdedup]
    rw [pageRank_sym "b.py" (by decide), pageRank_sym "a.py" (by decide)]
    simp only [List.insertionSort, List.orderedInsert]
    simp [fileLe]
  intro h
  rw [hout] at h
  have h2 := (List.pairwise_cons.mp h).1 _ (List.mem_singleton.mpr rfl) rfl
  exact absurd h2 (by decide)

/-! ## Claim C4 — PageRank mass conservation

In exact arithmetic one PageRank iteration preserves the total mass over
the node set: summing `rank'(v) = (1-α)/N + α·D/N + α·Σ_{u→v} rank(u)/deg(u)`
over all `v` gives `(1-α) + α·D + α·Σ_{deg(u)>0} rank(u) = 1` whenever the
previous ranks summed to 1, every edge endpoint is a node, and the nodes
are duplicate-free. -/

theorem sum_map_update {l : List String} (hnd : l.Nodup) {k : String}
    (hk : k ∈ l) (g : String → ℚ) (d : ℚ) :
    (l.map (fun v => if v = k then g v + d else g v)).sum = (l.map g).sum + d := by
  induction l with
  | nil => exact absurd hk (List.not_mem_nil _)
  | cons a t ih =>
    rcases List.mem_cons.mp hk with heq | hk2
    · subst heq
      have htail : t.map (fun v => if v = k then g v + d else g v) = t.map g := by
        apply List.map_congr_left
        intro v hv
        rw [if_neg]
        intro hc
        exact (List.nodup_cons.mp hnd).1 (hc ▸ hv)
      simp only [List.map_cons, List.sum_cons, htail]
      simp
      ring
    · have ha : ¬ (a = k) := fun hc =>
        (List.nodup_cons.mp hnd).1 (hc ▸ hk2)
      simp only [List.map_cons, List.sum_cons, if_neg ha]
      rw [ih (List.nodup_cons.mp hnd).2 hk2]
      ring

theorem sum_map_foldl_edges {nodes : List String} (hnd : nodes.Nodup)
    (contrib : String × String → ℚ) :
    ∀ (folded : List (String × String)), (∀ e ∈ folded, e.2 ∈ nodes) →
      ∀ (g : String → ℚ),
      (nodes.map (folded.foldl
        (fun r e => fun v => if v = e.2 then r v + contrib e else r v) g)).sum
        = (nodes.map g).sum + (folded.map contrib).sum := by
  intro folded
  induction folded with
  | nil =>
    intro _ g
    simp
  | cons e es ih =>
    intro hT g
    simp only [List.foldl_cons, List.map_cons, List.sum_cons]
    rw [ih (fun x hx => hT x (List.mem_cons_of_mem _ hx))
      (fun v => if v = e.2 then g v + contrib e else g v)]
    rw [sum_map_update hnd (hT e (List.mem_cons_self _ _)) g (contrib e)]
    ring

theorem sum_div_count (srcs : List String) (f : String → ℚ) :
    (srcs.map (fun u => f u / (srcs.count u : ℚ))).sum =
      ∑ x ∈ srcs.toFinset, f x := by
  rw [Finset.sum_list_map_count]
  apply Finset.sum_congr rfl
  intro x hx
  have hpos : 0 < srcs.count x :=
    List.count_pos_iff.mpr (List.mem_toFinset.mp hx)
  rw [nsmul_eq_mul]
  rw [mul_div_cancel₀]
  exact Nat.cast_ne_zero.mpr (Nat.pos_iff_ne_zero.mp hpos)

theorem sum_map_filter_split (p : String → Bool) (f : String → ℚ)
    (l : List String) :
    ((l.filter p).map f).sum + ((l.filter (fun v => !(p v))).map f).sum
      = (l.map f).sum := by
  induction l with
  | nil => simp
  | cons a t ih =>
    by_cases hp : p a
    · rw [List.filter_cons_of_pos hp,
        List.filter_cons_of_neg (by simp [hp])]
      simp only [List.map_cons, List.sum_cons]
      rw [← ih]
      ring
    · rw [List.filter_cons_of_neg hp,
        List.filter_cons_of_pos (by simp [hp])]
      simp only [List.map_cons, List.sum_cons]
      rw [← ih]
      ring

theorem sum_nonneg_edge_filter {nodes : List String} (hnd : nodes.Nodup)
    (edges : List (String × String)) (hS : ∀ e ∈ edges, e.1 ∈ nodes)
    (f : String → ℚ) :
    ((nodes.filter (fun v => !(decide (outDeg edges v = 0)))).map f).sum =
      ∑ x ∈ (edges.map Prod.fst).toFinset, f x := by
  have hnodup : (nodes.filter (fun v => !(decide (outDeg edges v = 0)))).Nodup :=
    hnd.filter _
  rw [← List.sum_toFinset f hnodup]
  apply Finset.sum_congr ?_ (fun _ _ => rfl)
  apply Finset.ext
  intro x
  simp only [List.mem_toFinset, List.mem_filter, Bool.not_eq_eq_eq_not,
    Bool.not_true, decide_eq_false_iff_not]
  constructor
  · rintro ⟨_, hdeg⟩
    have : 0 < (edges.map Prod.fst).count x := Nat.pos_iff_ne_zero.mpr hdeg
    exact List.count_pos_iff.mp this
  · intro hx
    obtain ⟨e, he, rfl⟩ := List.mem_map.mp hx
    refine ⟨hS e he, ?_⟩
    intro hc
    have := List.count_eq_zero.mp hc
    exact this (List.mem_map.mpr ⟨e, he, rfl⟩)

theorem sum_map_mul_left (l : List String) (c : ℚ) (f : String → ℚ) :
    (l.map (fun u => c * f u)).sum = c * (l.map f).sum := by
  induction l with
  | nil => simp
  | cons a t ih =>
    simp only [List.map_cons, List.sum_cons]
    rw [ih]
    ring

theorem sum_map_const_mem (l : List String) (c : ℚ) :
    (l.map (fun v => if v ∈ l then c else 0)).sum = (l.length : ℚ) * c := by
  have h1 : ∀ (t : List String), (∀ v ∈ t, v ∈ l) →
      (t.map (fun v => if v ∈ l then c else 0)).sum = (t.length : ℚ) * c := by
    intro t
    induction t with
    | nil => simp
    | cons a s ih =>
      intro hsub
      simp only [List.map_cons, List.sum_cons,
        if_pos (hsub a (List.mem_cons_self _ _)), List.length_cons]
      rw [ih (fun v hv => hsub v (List.mem_cons_of_mem _ hv))]
      push_cast
      ring
  exact h1 l (fun _ hv => hv)

/-- One PageRank iteration preserves total mass 1 over the node set. -/
theorem prIter_sum {nodes : List String} {edges : List (String × String)}
    (alpha : ℚ) (hnd : nodes.Nodup) (hne : nodes ≠ [])
    (hS : ∀ e ∈ edges, e.1 ∈ nodes) (hT : ∀ e ∈ edges, e.2 ∈ nodes)
    (rank : String → ℚ) (hsum : (nodes.map rank).sum = 1) :
    (nodes.map (prIter nodes edges alpha rank)).sum = 1 := by
  have hn0 : ((nodes.length : ℚ)) ≠ 0 := by
    refine Nat.cast_ne_zero.mpr ?_
    intro hc
    exact hne (List.eq_nil_of_length_eq_zero hc)
  simp only [prIter]
  rw [sum_map_foldl_edges hnd _ edges hT]
  rw [sum_map_const_mem]
  have hgroup : (edges.map (fun e =>
      alpha * rank e.1 / (outDeg edges e.1 : ℚ))).sum =
      ∑ x ∈ (edges.map Prod.fst).toFinset, alpha * rank x := by
    have hmm : edges.map (fun e => alpha * rank e.1 / (outDeg edges e.1 : ℚ)) =
        (edges.map Prod.fst).map
          (fun u => alpha * rank u / ((edges.map Prod.fst).count u : ℚ)) := by
      rw [List.map_map]
      rfl
    rw [hmm, sum_div_count (edges.map Prod.fst) (fun u => alpha * rank u)]
  rw [hgroup]
  rw [← sum_nonneg_edge_filter hnd edges hS (fun u => alpha * rank u)]
  have hsplit := sum_map_filter_split (fun v => decide (outDeg edges v = 0))
    (fun u => alpha * rank u) nodes
  have hp1 : ((nodes.filter (fun v => decide (outDeg edges v = 0))).map
      (fun u => alpha * rank u)).sum =
      alpha * ((nodes.filter (fun v => decide (outDeg edges v = 0))).map
        rank).sum :=
    sum_map_mul_left _ alpha rank
  have hall : (nodes.map (fun u => alpha * rank u)).sum = alpha := by
    rw [sum_map_mul_left nodes alpha rank, hsum, mul_one]
  have hS2 : ((nodes.filter (fun v => !(decide (outDeg edges v = 0)))).map
      (fun u => alpha * rank u)).sum =
      alpha - alpha * ((nodes.filter (fun v =>
        decide (outDeg edges v = 0))).map rank).sum := by
    linarith [hsplit, hp1, hall]
  rw [hS2]
  field_simp

theorem foldl_edges_nonneg {alpha : ℚ} (hα0 : 0 ≤ alpha)
    (rank : String → ℚ) (h : ∀ v, 0 ≤ rank v)
    (edges : List (String × String)) :
    ∀ (folded : List (String × String)) (g : String → ℚ), (∀ w, 0 ≤ g w) →
      ∀ v, 0 ≤ (folded.foldl
        (fun r e => fun w =>
          if w = e.2 then r w + alpha * rank e.1 / (outDeg edges e.1 : ℚ)
          else r w) g) v := by
  intro folded
  induction folded with
  | nil => intro g hg v; exact hg v
  | cons e es ih =>
    intro g hg v
    simp only [List.foldl_cons]
    apply ih
    intro w
    by_cases hw : w = e.2
    · rw [if_pos hw]
      have hc : 0 ≤ alpha * rank e.1 / (outDeg edges e.1 : ℚ) :=
        div_nonneg (mul_nonneg hα0 (h _)) (Nat.cast_nonneg _)
      linarith [hg w]
    · rw [if_neg hw]
      exact hg w

/-- One PageRank iteration preserves pointwise non-negativity. -/
theorem prIter_nonneg {nodes : List String} {edges : List (String × String)}
    {alpha : ℚ} (hα0 : 0 ≤ alpha) (hα1 : alpha ≤ 1)
    (rank : String → ℚ) (h : ∀ v, 0 ≤ rank v) :
    ∀ v, 0 ≤ prIter nodes edges alpha rank v := by
  intro v
  simp only [prIter]
  apply foldl_edges_nonneg hα0 rank h edges edges
  intro w
  by_cases hw : w ∈ nodes
  · rw [if_pos hw]
    have h1 : 0 ≤ (1 - alpha) / (nodes.length : ℚ) :=
      div_nonneg (by linarith) (Nat.cast_nonneg _)
    have hD : 0 ≤ ((nodes.filter
        (fun u => outDeg edges u = 0)).map rank).sum := by
      apply List.sum_nonneg
      intro x hx
      obtain ⟨w2, _, rfl⟩ := List.mem_map.mp hx
      exact h w2
    have h2 : 0 ≤ alpha * ((nodes.filter
        (fun u => outDeg edges u = 0)).map rank).sum / (nodes.length : ℚ) :=
      div_nonneg (mul_nonneg hα0 hD) (Nat.cast_nonneg _)
    linarith
  · rw [if_neg hw]

/-- The PageRank loop preserves non-negativity and total mass 1. -/
theorem prLoop_inv {nodes : List String} {edges : List (String × String)}
    {alpha tol : ℚ} (hnd : nodes.Nodup) (hne : nodes ≠ [])
    (hS : ∀ e ∈ edges, e.1 ∈ nodes) (hT : ∀ e ∈ edges, e.2 ∈ nodes)
    (hα0 : 0 ≤ alpha) (hα1 : alpha ≤ 1) :
    ∀ (k : Nat) (rank : String → ℚ), (∀ v, 0 ≤ rank v) →
      (nodes.map rank).sum = 1 →
      (∀ v, 0 ≤ prLoop nodes edges alpha tol k rank v) ∧
      (nodes.map (prLoop nodes edges alpha tol k rank)).sum = 1 := by
  intro k
  induction k with
  | zero => exact fun rank h0 h1 => ⟨h0, h1⟩
  | succ m ih =>
    intro rank h0 h1
    rw [prLoop_succ]
    by_cases hc : prDiff nodes rank (prIter nodes edges alpha rank) < tol
    · rw [if_pos hc]
      exact ⟨prIter_nonneg hα0 hα1 rank h0,
        prIter_sum alpha hnd hne hS hT rank h1⟩
    · rw [if_neg hc]
      exact ih _ (prIter_nonneg hα0 hα1 rank h0)
        (prIter_sum alpha hnd hne hS hT rank h1)

/-- `pageRank` with the graph.go parameters yields non-negative ranks
summing to exactly 1 over the node set (in exact arithmetic). -/
theorem pageRank_inv {nodes : List String} {edges : List (String × String)}
    (hnd : nodes.Nodup) (hne : nodes ≠ [])
    (hS : ∀ e ∈ edges, e.1 ∈ nodes) (hT : ∀ e ∈ edges, e.2 ∈ nodes) :
    (∀ v, 0 ≤ pageRank nodes edges (17 / 20) 100 (1 / 1000000) v) ∧
    (nodes.map (pageRank nodes edges (17 / 20) 100 (1 / 1000000))).sum = 1 := by
  have hlen : ¬ nodes.length = 0 := fun hc =>
    hne (List.eq_nil_of_length_eq_zero hc)
  have hn0 : ((nodes.length : ℚ)) ≠ 0 := Nat.cast_ne_zero.mpr hlen
  simp only [pageRank]
  rw [if_neg hlen]
  apply prLoop_inv hnd hne hS hT (by norm_num) (by norm_num)
  · intro v
    by_cases hv : v ∈ nodes
    · rw [if_pos hv]
      exact div_nonneg (by norm_num) (Nat.cast_nonneg _)
    · rw [if_neg hv]
  · rw [sum_map_const_mem nodes (1 / (nodes.length : ℚ))]
    field_simp

/-- The rank function computed inside the main branch of `Rank` (the
let-bound `ranks`), as a standalone abbreviation for the lemmas below. -/
def rankFun (fileInfos : List FileInfo) (deps : List Dependency) :
    String → ℚ :=
  pageRank ((fileInfos.map (fun fi => fi.Path)).dedup)
    (deps.flatMap (fun d => d.Symbols.map (fun _ => (d.Source, d.Target))))
    (17 / 20) 100 (1 / 1000000)

/-- The main branch of `Rank`, written without the let-bindings. -/
theorem Rank_eq_main (fileInfos : List FileInfo) (deps : List Dependency)
    (h1 : ¬ fileInfos.length = 0) (h2 : ¬ deps.length = 0) :
    Rank fileInfos deps = List.insertionSort fileLe
      (fileInfos.map (fun x => { x with Rank := rankFun fileInfos deps x.Path })) := by
  unfold Rank
  rw [if_neg h1, if_neg h2]
  rfl

/-- Summing the ranks of the sorted, rank-updated file list equals
summing the rank function over the path list. -/
theorem sum_rank_insertionSort (l : List FileInfo) (f : String → ℚ) :
    ((List.insertionSort fileLe
        (l.map (fun x => { x with Rank := f x.Path }))).map
      (fun fi => fi.Rank)).sum =
      ((l.map (fun fi => fi.Path)).map f).sum := by
  rw [List.Perm.sum_eq (List.Perm.map _ (List.perm_insertionSort _ _))]
  rw [List.map_map, List.map_map]
  rfl

/-- Claim C4 (amended): for a non-empty file list with duplicate-free
paths and dependencies whose endpoints are all file paths, every rank
assigned by `Rank` is non-negative; with at least one Dependency the
ranks sum to exactly 1 (so certainly within 0.01 of 1); and with zero
Dependencies every file's rank is `1/N`.  (The frozen claim quantified
over arbitrary inputs; duplicate paths or a Dependency endpoint outside
the file set break the mass balance, see `C4_counterexample`.) -/
theorem C4_rank_sum (fileInfos : List FileInfo) (deps : List Dependency)
    (hne : fileInfos ≠ [])
    (hnodup : (fileInfos.map (fun fi => fi.Path)).Nodup)
    (hdeps : ∀ d ∈ deps, d.Source ∈ fileInfos.map (fun fi => fi.Path) ∧
      d.Target ∈ fileInfos.map (fun fi => fi.Path)) :
    (∀ fi ∈ Rank fileInfos deps, 0 ≤ fi.Rank) ∧
    (deps ≠ [] →
      |1 - ((Rank fileInfos deps).map (fun fi => fi.Rank)).sum| ≤ 1 / 100) ∧
    (deps = [] → ∀ fi ∈ Rank fileInfos deps,
      fi.Rank = 1 / (fileInfos.length : ℚ)) := by
  have hlen : ¬ fileInfos.length = 0 := fun hc =>
    hne (List.eq_nil_of_length_eq_zero hc)
  by_cases hdeq : deps = []
  · subst hdeq
    unfold Rank
    rw [if_neg hlen,
      if_pos (show ([] : List Dependency).length = 0 from rfl)]
    refine ⟨?_, fun hc => absurd rfl hc, ?_⟩
    · intro fi hfi
      obtain ⟨x, _, rfl⟩ := List.mem_map.mp hfi
      exact div_nonneg (by norm_num) (Nat.cast_nonneg _)
    · intro _ fi hfi
      obtain ⟨x, _, rfl⟩ := List.mem_map.mp hfi
      rfl
  · have hdlen : ¬ deps.length = 0 := fun hc =>
      hdeq (List.eq_nil_of_length_eq_zero hc)
    have hnodes : (fileInfos.map (fun fi => fi.Path)).dedup =
        fileInfos.map (fun fi => fi.Path) := hnodup.dedup
    have hnodesne : fileInfos.map (fun fi => fi.Path) ≠ [] := by
      intro hc
      exact hne (List.map_eq_nil_iff.mp hc)
    have hedgeS : ∀ e ∈ deps.flatMap
        (fun d => d.Symbols.map (fun _ => (d.Source, d.Target))),
        e.1 ∈ fileInfos.map (fun fi => fi.Path) := by
      intro e he
      obtain ⟨d, hd, hsym⟩ := List.mem_flatMap.mp he
      obtain ⟨_, _, rfl⟩ := List.mem_map.mp hsym
      exact (hdeps d hd).1
    have hedgeT : ∀ e ∈ deps.flatMap
        (fun d => d.Symbols.map (fun _ => (d.Source, d.Target))),
        e.2 ∈ fileInfos.map (fun fi => fi.Path) := by
      intro e he
      obtain ⟨d, hd, hsym⟩ := List.mem_flatMap.mp he
      obtain ⟨_, _, rfl⟩ := List.mem_map.mp hsym
      exact (hdeps d hd).2
    obtain ⟨hpos, hsum⟩ := pageRank_inv hnodup hnodesne hedgeS hedgeT
    have hrf : rankFun fileInfos deps =
        pageRank (fileInfos.map (fun fi => fi.Path))
          (deps.flatMap (fun d => d.Symbols.map
            (fun _ => (d.Source, d.Target))))
          (17 / 20) 100 (1 / 1000000) := by
      unfold rankFun
      rw [hnodes]
    have hpos2 : ∀ v, 0 ≤ rankFun fileInfos deps v := by
      intro v
      rw [hrf]
      exact hpos v
    have hsum2 : ((fileInfos.map (fun fi => fi.Path)).map
        (rankFun fileInfos deps)).sum = 1 := by
      rw [hrf]
      exact hsum
    refine ⟨?_, ?_, fun hc => absurd hc hdeq⟩
    · intro fi hfi
      rw [Rank_eq_main fileInfos deps hlen hdlen] at hfi
      have h2 := (List.perm_insertionSort _ _).mem_iff.mp hfi
      obtain ⟨x, _, rfl⟩ := List.mem_map.mp h2
      exact hpos2 x.Path
    · intro _
      rw [Rank_eq_main fileInfos deps hlen hdlen,
        sum_rank_insertionSort, hsum2]
      norm_num

/-- A single file `a` whose only Dependency points at `c`, a path that is
not among the files. -/
def fiA3 : FileInfo :=
  { Path := "a", Language := "python", Tags := [], Rank := 0 }

/-- The Dependency leaving the file set: `a → c`. -/
def cdeps1 : List Dependency :=
  [{ Source := "a", Target := "c", Symbols := ["x"] }]

/-- On the leaky one-node instance every iteration assigns `a` the bare
teleport mass 3/20 (the rest of the mass flows to the non-node `c`). -/
theorem prIter_leak (rank : String → ℚ) :
    prIter ["a"] [("a", "c")] (17 / 20) rank "a" = 3 / 20 := by
  have hfilter : (["a"] : List String).filter
      (fun v => outDeg [("a", "c")] v = 0) = [] := by decide
  simp only [prIter, hfilter, List.map_nil, List.sum_nil, List.foldl_cons,
    List.foldl_nil]
  rw [if_neg (by decide : ¬ ("a" : String) = "c"),
    if_pos (by decide : ("a" : String) ∈ (["a"] : List String))]
  norm_num

/-- Full evaluation of `pageRank` on the leaky instance: the loop
stabilizes after two iterations at rank 3/20 for the only node. -/
theorem pageRank_leak :
    pageRank ["a"] [("a", "c")] (17 / 20) 100 (1 / 1000000) "a" = 3 / 20 := by
  have hd1 : prDiff ["a"]
      (fun v => if v ∈ (["a"] : List String)
        then 1 / ((["a"] : List String).length : ℚ) else 0)
      (prIter ["a"] [("a", "c")] (17 / 20)
        (fun v => if v ∈ (["a"] : List String)
          then 1 / ((["a"] : List String).length : ℚ) else 0)) = 17 / 20 := by
    simp only [prDiff, List.map_cons, List.map_nil, List.sum_cons,
      List.sum_nil]
    rw [prIter_leak,
      if_pos (by decide : ("a" : String) ∈ (["a"] : List String))]
    norm_num
  have hd2 : prDiff ["a"]
      (prIter ["a"] [("a", "c")] (17 / 20)
        (fun v => if v ∈ (["a"] : List String)
          then 1 / ((["a"] : List String).length : ℚ) else 0))
      (prIter ["a"] [("a", "c")] (17 / 20)
        (prIter ["a"] [("a", "c")] (17 / 20)
          (fun v => if v ∈ (["a"] : List String)
            then 1 / ((["a"] : List String).length : ℚ) else 0))) = 0 := by
    simp only [prDiff, List.map_cons, List.map_nil, List.sum_cons,
      List.sum_nil]
    rw [prIter_leak, prIter_leak]
    norm_num
  simp only [pageRank]
  rw [if_neg (by decide : ¬ (["a"] : List String).length = 0)]
  rw [show (100 : Nat) = 99 + 1 from rfl, prLoop_succ,
    if_neg (by rw [hd1]; norm_num)]
  rw [show (99 : Nat) = 98 + 1 from rfl, prLoop_succ,
    if_pos (by rw [hd2]; norm_num)]
  exact prIter_leak _

/-- `Rank` on the leaky instance assigns rank 3/20. -/
theorem rank_leak_eval :
    Rank [fiA3] cdeps1 = [{ fiA3 with Rank := 3 / 20 }] := by
  rw [Rank_eq_main _ _ (by decide) (by decide)]
  have hrf2 : rankFun [fiA3] cdeps1 fiA3.Path = 3 / 20 := by
    unfold rankFun
    rw [show (([fiA3] : List FileInfo).map (fun fi => fi.Path)).dedup = ["a"]
        from by decide,
      show (cdeps1.flatMap (fun d => d.Symbols.map
        (fun _ => (d.Source, d.Target)))) = [("a", "c")] from by decide,
      show fiA3.Path = "a" from rfl]
    exact pageRank_leak
  simp only [List.map_cons, List.map_nil]
  rw [hrf2]
  simp [List.insertionSort, List.orderedInsert]

/-- `Rank` on the duplicate-path instance (paths `b.py, b.py, a.py` with
the symmetric dependencies) assigns every entry rank 1/2. -/
theorem rank_dup_eval :
    Rank [fiB2, fiB2, fiA2] depsSym =
      [{ fiB2 with Rank := 1 / 2 }, { fiB2 with Rank := 1 / 2 },
       { fiA2 with Rank := 1 / 2 }] := by
  rw [Rank_eq_main _ _ (by decide) (by decide)]
  have hrfB : rankFun [fiB2, fiB2, fiA2] depsSym fiB2.Path = 1 / 2 := by
    unfold rankFun
    rw [show (([fiB2, fiB2, fiA2] : List FileInfo).map
        (fun fi => fi.Path)).dedup = ["b.py", "a.py"] from by decide,
      show (depsSym.flatMap (fun d => d.Symbols.map
        (fun _ => (d.Source, d.Target)))) =
        [("a.py", "b.py"), ("b.py", "a.py")] from by decide,
      show fiB2.Path = "b.py" from rfl]
    exact pageRank_sym "b.py" (by decide)
  have hrfA : rankFun [fiB2, fiB2, fiA2] depsSym fiA2.Path = 1 / 2 := by
    unfold rankFun
    rw [show (([fiB2, fiB2, fiA2] : List FileInfo).map
        (fun fi => fi.Path)).dedup = ["b.py", "a.py"] from by decide,
      show (depsSym.flatMap (fun d => d.Symbols.map
        (fun _ => (d.Source, d.Target)))) =
        [("a.py", "b.py"), ("b.py", "a.py")] from by decide,
      show fiA2.Path = "a.py" from rfl]
    exact pageRank_sym "a.py" (by decide)
  simp only [List.map_cons, List.map_nil]
  rw [hrfB, hrfA]
  simp [List.insertionSort, List.orderedInsert, fileLe]

/-- Claim C4, counterexample to the frozen statement: (a) one file `a`
with the Dependency `a → c` whose target is not a file — the rank mass
leaks to `c` and the single rank sums to 3/20, not ≈ 1; (b) a file list
with a duplicated path and the symmetric dependencies — the ranks sum to
3/2, not ≈ 1.  Both inputs are non-empty and have at least one
Dependency, so the frozen claim asserts `|1 − Σ rank| ≤ 0.01` for both. -/
theorem C4_counterexample :
    (([fiA3] : List FileInfo) ≠ [] ∧ cdeps1 ≠ [] ∧
      ¬ |1 - ((Rank [fiA3] cdeps1).map (fun fi => fi.Rank)).sum| ≤ 1 / 100) ∧
    (([fiB2, fiB2, fiA2] : List FileInfo) ≠ [] ∧ depsSym ≠ [] ∧
      ¬ |1 - ((Rank [fiB2, fiB2, fiA2] depsSym).map
          (fun fi => fi.Rank)).sum| ≤ 1 / 100) := by
  refine ⟨⟨by decide, by decide, ?_⟩, ⟨by decide, by decide, ?_⟩⟩
  · rw [rank_leak_eval]
    simp only [List.map_cons, List.map_nil, List.sum_cons, List.sum_nil]
    rw [show |1 - (3 / 20 + 0 : ℚ)| = 17 / 20 by norm_num]
    norm_num
  · rw [rank_dup_eval]
    simp only [List.map_cons, List.map_nil, List.sum_cons, List.sum_nil]
    rw [show |1 - (1 / 2 + (1 / 2 + (1 / 2 + 0)) : ℚ)| = 1 / 2 by
      rw [show (1 : ℚ) - (1 / 2 + (1 / 2 + (1 / 2 + 0))) = -(1 / 2) by norm_num,
        abs_neg]
      norm_num]
    norm_num

/-- Claim C4, witness for the amended theorem: the two-file symmetric
instance has distinct paths and in-set dependency endpoints, so the
theorem applies and gives `|1 − Σ rank| ≤ 1/100`. -/
theorem C4_witness :
    ([fiB2, fiA2] : List FileInfo) ≠ [] ∧
    (([fiB2, fiA2] : List FileInfo).map (fun fi => fi.Path)).Nodup ∧
    depsSym ≠ [] ∧
    |1 - ((Rank [fiB2, fiA2] depsSym).map (fun fi => fi.Rank)).sum| ≤ 1 / 100 :=
  ⟨by decide, by decide, by decide,
    (C4_rank_sum [fiB2, fiA2] depsSym (by decide) (by decide)
      (by decide)).2.1 (by decide)⟩

end Repoguide
